import Mathlib

/-!
Verification of the entry lifecycle and monthly-recurrence engine of the
presupuestapp repository (`EntryService`, src/unnamed/part_003).

The service is embedded shallowly:

* JavaScript runtime values that reach the service from `localStorage` or
  an imported file are modelled by the inductive `JSValue` (the image of
  `JSON.parse`, extended with `undefined` so that absent object fields can be
  represented).  JavaScript numbers are modelled by `JsNumber`: an exact
  rational for finite values plus `NaN` and the infinities.
* Timestamps (`Date` objects holding a valid instant) are integers counting
  milliseconds since the Unix epoch.  `new Date(string)` is modelled by
  `parseDate`, which accepts the two ISO-8601 shapes the application itself
  reads and writes (`YYYY-MM-DD` and `YYYY-MM-DDTHH:MM:SS.mmmZ`); every other
  string is treated as an invalid date.  `Date.prototype.toISOString` is
  `toISOString`, and the UTC calendar arithmetic used by the service
  (`getUTCFullYear`/`getUTCMonth`/`setUTCMonth`) is implemented with the
  standard civil-from-days / days-from-civil algorithms.
* The only effects the service performs are `new Date()` (the current time)
  and `generateId()`.  They are modelled by passing the current timestamp
  `now : Int` explicitly and by threading a `Gen` value: a supply of fresh
  identifier strings together with a counter.
* `persistEntries` writes the in-memory collection to the subject, the signal
  and local storage atomically; operations are therefore modelled as pure
  functions from the current entry list (the subject's value) to the new
  entry list.  `ensureRecurringEntriesUpTo` defers its `persistEntries` call
  to a microtask (`Promise.resolve().then(...)`); the functions below return
  the list that this deferred call persists.
-/

namespace Presupuestapp

/-- A JavaScript number: a finite value (modelled as an exact rational — the
floating-point grid is a subset of `ℚ` and none of the verified claims depend
on rounding), `NaN`, or an infinity. -/
inductive JsNumber where
  | finite (q : ℚ)
  | nan
  | posInf
  | negInf
  deriving DecidableEq, Repr

/-- A JavaScript runtime value as produced by `JSON.parse`, extended with
`undefined` so that a missing object property can be returned by field
lookup, mirroring JavaScript property access. -/
inductive JSValue where
  | undefined
  | null
  | bool (b : Bool)
  | num (n : JsNumber)
  | str (s : String)
  | arr (xs : List JSValue)
  | obj (fields : List (String × JSValue))
  deriving Repr

/-- JavaScript property access `v[key]`: `undefined` when the value is not an
object or the key is missing.  (JSON objects produced by `JSON.parse` have no
duplicate keys of interest; the first binding wins.) -/
def getField (v : JSValue) (key : String) : JSValue :=
  match v with
  | .obj fields =>
    match fields.find? (fun p => p.1 = key) with
    | some p => p.2
    | none => .undefined
  | _ => .undefined

/-- `typeof v === 'object' && v !== null`: true for objects and arrays.
This is the shape test `normalizeStoredEntry` applies to its input. -/
def isObjectShaped (v : JSValue) : Bool :=
  match v with
  | .obj _ => true
  | .arr _ => true
  | _ => false

/-- Truncation toward zero, `Math.trunc` on an exact rational. -/
def ratTrunc (q : ℚ) : Int :=
  Int.tdiv q.num (q.den : Int)

/-- Decimal digits of a rational in `[0, 1)`; fuel-bounded (64 digits covers
every value a double can take; the fallback is never reached for
JavaScript-representable numbers). -/
def fracDigits : Nat → ℚ → String
  | 0, _ => ""
  | fuel + 1, r =>
    if r = 0 then ""
    else
      let r10 := r * 10
      let d := Rat.floor r10
      toString d ++ fracDigits fuel (r10 - (d : ℚ))

/-- `String(n)` for a JavaScript number.  Finite values print as a plain
decimal expansion (the exponent-notation thresholds of JavaScript, reached
only beyond `1e21` / below `1e-6`, are not modelled). -/
def jsNumToString : JsNumber → String
  | .nan => "NaN"
  | .posInf => "Infinity"
  | .negInf => "-Infinity"
  | .finite q =>
    if q.den = 1 then toString q.num
    else
      let sign := if q < 0 then "-" else ""
      let a := |q|
      let ip := Rat.floor a
      sign ++ toString ip ++ "." ++ fracDigits 64 (a - (ip : ℚ))

mutual

/-- `String(v)`: JavaScript string conversion.  Arrays join their elements
with commas, `null`/`undefined` elements printing as the empty string;
objects print as `[object Object]`. -/
def jsToString : JSValue → String
  | .undefined => "undefined"
  | .null => "null"
  | .bool b => if b then "true" else "false"
  | .num n => jsNumToString n
  | .str s => s
  | .obj _ => "[object Object]"
  | .arr xs => String.intercalate "," (jsArrParts xs)

/-- The element strings an array joins: `null`/`undefined` print empty. -/
def jsArrParts : List JSValue → List String
  | [] => []
  | .null :: rest => "" :: jsArrParts rest
  | .undefined :: rest => "" :: jsArrParts rest
  | x :: rest => jsToString x :: jsArrParts rest

end

/-- The whitespace characters `parseInt` skips (ASCII subset; the exotic
Unicode space classes are not modelled). -/
def jsWhitespace (c : Char) : Bool :=
  c = ' ' ∨ c = '\t' ∨ c = '\n' ∨ c = '\r'

/-- Value of a run of decimal digits. -/
def digitsToNat (cs : List Char) : Nat :=
  cs.foldl (fun acc c => acc * 10 + (c.toNat - 48)) 0

/-- ASCII upper-casing of one character (`String.prototype.toUpperCase` on
the ASCII range; the Unicode case mappings are not modelled — the service
only compares against `"EXPENSE"`/`"INCOME"`). -/
def asciiUpperChar (c : Char) : Char :=
  if 'a' ≤ c ∧ c ≤ 'z' then Char.ofNat (c.toNat - 32) else c

/-- `String.prototype.toUpperCase` (ASCII). -/
def jsToUpper (s : String) : String :=
  String.mk (s.data.map asciiUpperChar)

/-- `String.prototype.trim`: strip leading and trailing whitespace (ASCII
whitespace subset). -/
def jsTrim (s : String) : String :=
  String.mk (((s.data.dropWhile jsWhitespace).reverse.dropWhile jsWhitespace).reverse)

/-- `Number.parseInt(s, 10)`: skip leading whitespace, optional sign, then
the longest run of decimal digits; `none` models `NaN` (no digits). -/
def jsParseInt (s : String) : Option Int :=
  let core : List Char → Option Nat := fun cs =>
    let ds := cs.takeWhile (fun c => c.isDigit)
    if ds.isEmpty then none else some (digitsToNat ds)
  match s.toList.dropWhile jsWhitespace with
  | '-' :: rest => (core rest).map (fun n => -(n : Int))
  | '+' :: rest => (core rest).map (fun n => (n : Int))
  | rest => (core rest).map (fun n => (n : Int))

/-! ### Calendar arithmetic

Milliseconds-since-epoch timestamps with the standard `civil_from_days` /
`days_from_civil` algorithms (months are 1-based here; the 0-based months of
JavaScript only ever appear in differences, which agree). -/

/-- Milliseconds in a day. -/
def msPerDay : Int := 86400000

/-- Day number (days since 1970-01-01) containing the timestamp. -/
def tsDays (ts : Int) : Int := Int.fdiv ts msPerDay

/-- Milliseconds elapsed since midnight UTC of the timestamp's day;
always in `[0, msPerDay)`. -/
def tsTimeOfDay (ts : Int) : Int := ts - msPerDay * tsDays ts

/-- Gregorian `(year, month, day)` (month 1–12) of a day number. -/
def civilFromDays (z0 : Int) : Int × Int × Int :=
  let z := z0 + 719468
  let era := Int.fdiv z 146097
  let doe := z - era * 146097
  let yoe := Int.fdiv (doe - Int.fdiv doe 1460 + Int.fdiv doe 36524 - Int.fdiv doe 146096) 365
  let y := yoe + era * 400
  let doy := doe - (365 * yoe + Int.fdiv yoe 4 - Int.fdiv yoe 100)
  let mp := Int.fdiv (5 * doy + 2) 153
  let d := doy - Int.fdiv (153 * mp + 2) 5 + 1
  let m := mp + (if mp < 10 then 3 else -9)
  ((if m ≤ 2 then y + 1 else y), m, d)

/-- Day number of a Gregorian date (month 1–12). `d` may lie outside the
month; the excess rolls over, exactly like the `MakeDay` overflow semantics
behind `Date.prototype.setUTCMonth`. -/
def daysFromCivil (y0 m d : Int) : Int :=
  let y := if m ≤ 2 then y0 - 1 else y0
  let era := Int.fdiv y 400
  let yoe := y - era * 400
  let doy := Int.fdiv (153 * (m + (if 2 < m then -3 else 9)) + 2) 5 + d - 1
  let doe := yoe * 365 + Int.fdiv yoe 4 - Int.fdiv yoe 100 + doy
  era * 146097 + doe - 719468

/-- UTC `(year, month, day)` of a timestamp. -/
def tsCivil (ts : Int) : Int × Int × Int := civilFromDays (tsDays ts)

/-- Leap-year test. -/
def isLeapYear (y : Int) : Bool :=
  Int.emod y 4 = 0 ∧ (Int.emod y 100 ≠ 0 ∨ Int.emod y 400 = 0)

/-- Number of days in a month. -/
def daysInMonth (y m : Int) : Int :=
  if m = 2 then (if isLeapYear y then 29 else 28)
  else if m = 4 ∨ m = 6 ∨ m = 9 ∨ m = 11 then 30
  else 31

/-- Decimal digit value of a character, if any. -/
def digitVal (c : Char) : Option Nat :=
  if '0' ≤ c ∧ c ≤ '9' then some (c.toNat - 48) else none

/-- Two-digit number. -/
def num2 (a b : Char) : Option Nat := do
  pure ((← digitVal a) * 10 + (← digitVal b))

/-- Three-digit number. -/
def num3 (a b c : Char) : Option Nat := do
  pure ((← digitVal a) * 100 + (← digitVal b) * 10 + (← digitVal c))

/-- Four-digit number. -/
def num4 (a b c d : Char) : Option Nat := do
  pure ((← digitVal a) * 1000 + (← digitVal b) * 100 + (← digitVal c) * 10 + (← digitVal d))

/-- Timestamp of a validated date/time; `none` when a component is out of
range (JavaScript rejects e.g. `2024-02-30` in ISO strings). -/
def mkTimestamp (y m d hh mi ss ms : Nat) : Option Int :=
  if 1 ≤ m ∧ m ≤ 12 ∧ 1 ≤ d ∧ (d : Int) ≤ daysInMonth (y : Int) (m : Int)
      ∧ hh ≤ 23 ∧ mi ≤ 59 ∧ ss ≤ 59 then
    some (daysFromCivil (y : Int) (m : Int) (d : Int) * msPerDay
      + (hh : Int) * 3600000 + (mi : Int) * 60000 + (ss : Int) * 1000 + (ms : Int))
  else
    none

/-- `new Date(s).getTime()` for the ISO-8601 string shapes the application
reads and writes: `YYYY-MM-DD` (UTC midnight) and
`YYYY-MM-DDTHH:MM:SS.mmmZ`.  Every other string is treated as an invalid
date (`NaN`), which is modelled by `none`. -/
def parseDate (s : String) : Option Int :=
  match s.toList with
  | [y1, y2, y3, y4, '-', m1, m2, '-', d1, d2] => do
    mkTimestamp (← num4 y1 y2 y3 y4) (← num2 m1 m2) (← num2 d1 d2) 0 0 0 0
  | [y1, y2, y3, y4, '-', m1, m2, '-', d1, d2, 'T',
     h1, h2, ':', n1, n2, ':', s1, s2, '.', f1, f2, f3, 'Z'] => do
    mkTimestamp (← num4 y1 y2 y3 y4) (← num2 m1 m2) (← num2 d1 d2)
      (← num2 h1 h2) (← num2 n1 n2) (← num2 s1 s2) (← num3 f1 f2 f3)
  | _ => none

/-- Left-pad a natural number with zeros to the given width. -/
def padNum (width n : Nat) : String :=
  let s := toString n
  if s.length < width then String.mk (List.replicate (width - s.length) '0') ++ s
  else s

/-- `Date.prototype.toISOString`: `YYYY-MM-DDTHH:MM:SS.mmmZ`.  Years are
assumed to lie in 0–9999 (the six-digit expanded form JavaScript uses outside
that range is not modelled; every date the application handles is
contemporary). -/
def toISOString (ts : Int) : String :=
  let days := tsDays ts
  let tod := (tsTimeOfDay ts).toNat
  let c := civilFromDays days
  padNum 4 c.1.toNat ++ "-" ++ padNum 2 c.2.1.toNat ++ "-" ++ padNum 2 c.2.2.toNat
    ++ "T" ++ padNum 2 (tod / 3600000)
    ++ ":" ++ padNum 2 (tod / 60000 % 60)
    ++ ":" ++ padNum 2 (tod / 1000 % 60)
    ++ "." ++ padNum 3 (tod % 1000)
    ++ "Z"

/-- `calculateMonthDistance`: `(end.getUTCFullYear() - start.getUTCFullYear())
* 12 + (end.getUTCMonth() - start.getUTCMonth())` — month differences agree
between 0-based and 1-based month numbers. -/
def calculateMonthDistance (startTs endTs : Int) : Int :=
  let s := tsCivil startTs
  let e := tsCivil endTs
  (e.1 - s.1) * 12 + (e.2.1 - s.2.1)

/-- `addMonths`: copy the date and `setUTCMonth(getUTCMonth() + months)`,
preserving the time of day; day-of-month overflow rolls into the following
month, as JavaScript's `MakeDay` does. -/
def addMonths (ts months : Int) : Int :=
  let c := tsCivil ts
  let m0 := (c.2.1 - 1) + months
  let y := c.1 + Int.fdiv m0 12
  let m := Int.emod m0 12 + 1
  daysFromCivil y m c.2.2 * msPerDay + tsTimeOfDay ts

/-- Day of week of a day number; 0 = Sunday (1970-01-01 was a Thursday). -/
def weekday (z : Int) : Int := Int.emod (z + 4) 7

/-- Day number of the first Sunday on or after the given date. -/
def firstSundayOnOrAfter (y m d : Int) : Int :=
  let z := daysFromCivil y m d
  z + Int.emod (7 - weekday z) 7

/-- UTC offset of `America/Santiago` in milliseconds, per the rules in force
in recent years (daylight saving from the first Sunday on or after September
2 at 04:00 UTC to the first Sunday on or after April 2 at 03:00 UTC;
UTC−3 during DST and UTC−4 otherwise).  Historical rule changes of the IANA
database are beyond this model; none of the verified claims depends on the
exact transition instants. -/
def santiagoOffset (ts : Int) : Int :=
  let y := (tsCivil ts).1
  let dstStart := firstSundayOnOrAfter y 9 2 * msPerDay + 4 * 3600000
  let dstEnd := firstSundayOnOrAfter y 4 2 * msPerDay + 3 * 3600000
  if dstStart ≤ ts ∨ ts < dstEnd then -3 * 3600000 else -4 * 3600000

/-- `buildMonthKey`: the `YYYY-MM` key of the month containing the timestamp,
evaluated in the fixed `America/Santiago` reference timezone (modelling the
`Intl.DateTimeFormat('en-CA', { timeZone: 'America/Santiago', year:
'numeric', month: '2-digit' })` formatter). -/
def buildMonthKey (ts : Int) : String :=
  let localTs := ts + santiagoOffset ts
  let c := civilFromDays (tsDays localTs)
  toString c.1.toNat ++ "-" ++ padNum 2 c.2.1.toNat

/-! ### Data model (`entry-data.model.ts` / `EntryService` types) -/

/-- `EntryType`: the supported entry types. -/
inductive EntryType where
  | EXPENSE
  | INCOME
  deriving DecidableEq, Repr

/-- The string value of an `EntryType` member (`EntryType.EXPENSE = 'EXPENSE'`,
`EntryType.INCOME = 'INCOME'`). -/
def EntryType.toStr : EntryType → String
  | .EXPENSE => "EXPENSE"
  | .INCOME => "INCOME"

/-- `EntryRecurrenceTermination`: `{mode:'indefinite'} | {mode:'occurrences',
total}`. -/
inductive Termination where
  | indefinite
  | occurrences (total : Int)
  deriving DecidableEq, Repr

/-- `EntryRecurrence` metadata attached to a recurring entry. -/
structure Recurrence where
  recurrenceId : String
  anchorDate : String
  occurrenceIndex : Int
  frequency : String
  termination : Termination
  excludedOccurrences : List Int
  deriving DecidableEq, Repr

/-- `EntryData`: a canonical in-memory entry. -/
structure EntryData where
  id : String
  amount : Int
  date : String
  description : Option String
  type : EntryType
  updatedAt : Option String
  recurrence : Option Recurrence
  deriving DecidableEq, Repr

/-- The id generator (`generateId`): a supply of fresh identifier strings and
a counter recording how many have been drawn. -/
structure Gen where
  ids : Nat → String
  counter : Nat

/-- Draw a fresh identifier. -/
def Gen.fresh (g : Gen) : String × Gen :=
  (g.ids g.counter, { g with counter := g.counter + 1 })

/-- First-occurrence deduplication, the semantics of `new Set(list)` followed
by `Array.from`. -/
def jsSetDedupAux {α : Type} [DecidableEq α] (seen : List α) : List α → List α
  | [] => []
  | x :: rest =>
    if x ∈ seen then jsSetDedupAux seen rest
    else x :: jsSetDedupAux (x :: seen) rest

/-- `Array.from(new Set(xs))`. -/
def jsSetDedup {α : Type} [DecidableEq α] (xs : List α) : List α :=
  jsSetDedupAux [] xs

/-- `.sort((a, b) => a - b)` on a number array: ascending numeric sort. -/
def sortInts (xs : List Int) : List Int :=
  List.insertionSort (fun a b => a ≤ b) xs

/-- `x ?? d`: nullish coalescing. -/
def nullishDefault (x d : JSValue) : JSValue :=
  match x with
  | .null => d
  | .undefined => d
  | v => v

/-! ### Normalizer -/

/-- `normalizeAmount`: a finite number truncates toward zero; anything else is
parsed as a base-10 integer from its string form (`String(amount ?? '0')`),
defaulting to 0. -/
def normalizeAmount (v : JSValue) : Int :=
  match v with
  | .num (.finite q) => ratTrunc q
  | w => (jsParseInt (jsToString (nullishDefault w (.str "0")))).getD 0

/-- `normalizeDate`: a string parsing to a valid instant yields its UTC ISO
form; everything else yields "now" and flags a resync. -/
def normalizeDate (now : Int) (v : JSValue) : String × Bool :=
  match v with
  | .str s =>
    match parseDate s with
    | some t => (toISOString t, false)
    | none => (toISOString now, true)
  | _ => (toISOString now, true)

/-- `normalizeType`: exact enum match, else case-insensitive match (flagging a
resync), else default `EXPENSE` with a resync flag. -/
def normalizeType (v : JSValue) : EntryType × Bool :=
  match v with
  | .str s =>
    if s = "EXPENSE" then (.EXPENSE, false)
    else if s = "INCOME" then (.INCOME, false)
    else
      let upper := jsToUpper s
      if upper = "EXPENSE" then (.EXPENSE, true)
      else if upper = "INCOME" then (.INCOME, true)
      else (.EXPENSE, true)
  | _ => (.EXPENSE, true)

/-- `normalizeTerminationInput`: validates a termination object from storage. -/
def normalizeTerminationInput (v : JSValue) : Option Termination × Bool :=
  if ¬ isObjectShaped v then (none, true)
  else
    match getField v "mode" with
    | .str "indefinite" => (some .indefinite, false)
    | .str "occurrences" =>
      let totalValue : JsNumber :=
        match getField v "total" with
        | .num n => n
        | w =>
          match jsParseInt (jsToString (nullishDefault w (.str ""))) with
          | some n => .finite (n : ℚ)
          | none => .nan
      match totalValue with
      | .finite q =>
        if 1 ≤ q then
          (some (.occurrences (ratTrunc q)), decide (((ratTrunc q : Int) : ℚ) ≠ q))
        else (none, true)
      | _ => (none, true)
    | _ => (none, true)

/-- One element of the `normalizeExcludedOccurrences` reduce: parse the item
as an integer (a number kept as such, anything else via
`parseInt(String(item ?? ''), 10)`), appending it when it is a non-negative
integer and flagging a resync otherwise. -/
def excludedStep (st : List Int × Bool) (item : JSValue) : List Int × Bool :=
  let parsed : JsNumber :=
    match item with
    | .num n => n
    | w =>
      match jsParseInt (jsToString (nullishDefault w (.str ""))) with
      | some n => .finite (n : ℚ)
      | none => .nan
  match parsed with
  | .finite q =>
    if q.den = 1 ∧ 0 ≤ q.num then (st.1 ++ [q.num], st.2) else (st.1, true)
  | _ => (st.1, true)

/-- `normalizeExcludedOccurrences`: parse each element as a non-negative
integer (dropping failures with a resync flag), then de-duplicate and sort
ascending, flagging a resync if duplicates were removed. -/
def normalizeExcludedOccurrences (v : JSValue) : List Int × Bool :=
  match v with
  | .undefined => ([], false)
  | .arr xs =>
    let folded := xs.foldl excludedStep ([], false)
    let unique := sortInts (jsSetDedup folded.1)
    (unique, folded.2 || decide (unique.length ≠ folded.1.length))
  | _ => ([], true)

/-- The id-keeping rule shared by entry ids and recurrence ids: keep a
string whose trim is non-empty, otherwise generate a fresh id and flag a
resync when the generated id differs from the raw value (it always does for
non-string raw values). -/
def normalizeIdCandidate (g : Gen) (v : JSValue) : String × Bool × Gen :=
  match v with
  | .str s =>
    if jsTrim s ≠ "" then (s, false, g)
    else
      let p := g.fresh
      (p.1, decide (p.1 ≠ s), p.2)
  | _ =>
    let p := g.fresh
    (p.1, true, p.2)

/-- The anchor-date rule: a string anchor is parsed (falling back to the
entry's normalized date), printed back to ISO form, and a resync is flagged
when the result differs from the raw value. -/
def normalizeAnchor (v : JSValue) (fallbackAnchor : String) : String × Bool :=
  let anchorSource :=
    match v with
    | .str s => s
    | _ => fallbackAnchor
  let anchorDate :=
    match parseDate anchorSource with
    | some t => toISOString t
    | none => fallbackAnchor
  (anchorDate,
    match v with
    | .str s => decide (anchorDate ≠ s)
    | _ => true)

/-- The occurrence-index rule: a non-negative integer number is kept,
anything else becomes 0 with a resync flag. -/
def normalizeOccurrenceIndex (v : JSValue) : Int × Bool :=
  match v with
  | .num (.finite q) =>
    if q.den = 1 ∧ 0 ≤ q.num then (q.num, false) else (0, true)
  | _ => (0, true)

/-- `normalizeStoredRecurrence`: validates the recurrence metadata from
storage, substituting the entry's normalized date as anchor fallback;
an invalid payload is dropped (the entry becomes non-recurring). -/
def normalizeStoredRecurrence (g : Gen) (v : JSValue) (fallbackAnchor : String) :
    (Option Recurrence × Bool) × Gen :=
  match v with
  | .undefined => ((none, false), g)
  | w =>
    if ¬ isObjectShaped w then ((none, true), g)
    else
      match getField w "frequency" with
      | .str "monthly" =>
        let ridStep := normalizeIdCandidate g (getField w "recurrenceId")
        let anchorStep := normalizeAnchor (getField w "anchorDate") fallbackAnchor
        let idxStep := normalizeOccurrenceIndex (getField w "occurrenceIndex")
        let termStep := normalizeTerminationInput (getField w "termination")
        match termStep.1 with
        | none => ((none, true), ridStep.2.2)
        | some term =>
          let exclStep := normalizeExcludedOccurrences (getField w "excludedOccurrences")
          ((some {
              recurrenceId := ridStep.1,
              anchorDate := anchorStep.1,
              occurrenceIndex := idxStep.1,
              frequency := "monthly",
              termination := term,
              excludedOccurrences := exclStep.1 },
            ridStep.2.1 || anchorStep.2 || idxStep.2 || termStep.2 || exclStep.2),
            ridStep.2.2)
      | _ => ((none, true), g)

/-- `normalizeStoredEntry`: validates/repairs a raw persisted or imported
record into a canonical entry, reporting whether a fix was applied; `none`
exactly when the input is not object-shaped. -/
def normalizeStoredEntry (g : Gen) (now : Int) (v : JSValue) :
    Option (EntryData × Bool) × Gen :=
  if ¬ isObjectShaped v then (none, g)
  else
    let amount := normalizeAmount (getField v "amount")
    let (normalizedDate, dateSync) := normalizeDate now (getField v "date")
    let rawDescription :=
      match getField v "description" with
      | .str s => jsTrim s
      | _ => ""
    let description := if rawDescription ≠ "" then some rawDescription else none
    let (ty, typeSync) := normalizeType (getField v "type")
    let uaStep : Option String × Bool :=
      match getField v "updatedAt" with
      | .undefined => (none, false)
      | w =>
        let r := normalizeDate now w
        (some r.1, r.2)
    let ((recurrence, recSync), g1) :=
      normalizeStoredRecurrence g (getField v "recurrence") normalizedDate
    let idStep := normalizeIdCandidate g1 (getField v "id")
    (some ({
        id := idStep.1,
        amount,
        date := normalizedDate,
        description,
        type := ty,
        updatedAt := uaStep.1,
        recurrence },
      dateSync || idStep.2.1 || typeSync || uaStep.2 || recSync), idStep.2.2)

/-! ### Comparison helpers -/

/-- `areTerminationsEqual`. -/
def areTerminationsEqual (a b : Termination) : Bool :=
  match a, b with
  | .indefinite, .indefinite => true
  | .occurrences x, .occurrences y => x = y
  | _, _ => false

/-- `areExcludedOccurrencesEqual`: both arrays are sorted ascending and then
compared element-for-element. -/
def areExcludedOccurrencesEqual (a b : List Int) : Bool :=
  sortInts a = sortInts b

/-- `areRecurrencesEqual`. -/
def areRecurrencesEqual : Option Recurrence → Option Recurrence → Bool
  | none, none => true
  | some a, some b =>
    a.recurrenceId = b.recurrenceId ∧ a.anchorDate = b.anchorDate
      ∧ a.occurrenceIndex = b.occurrenceIndex ∧ a.frequency = b.frequency
      ∧ areTerminationsEqual a.termination b.termination
      ∧ areExcludedOccurrencesEqual a.excludedOccurrences b.excludedOccurrences
  | _, _ => false

/-- The field-for-field comparison (amount, date, description, type,
recurrence) shared by `updateEntry` and `compareAndMergeEntries`. -/
def entryFieldsUnchanged (candidate current : EntryData) : Bool :=
  candidate.amount = current.amount ∧ candidate.date = current.date
    ∧ candidate.description = current.description ∧ candidate.type = current.type
    ∧ areRecurrencesEqual candidate.recurrence current.recurrence

/-! ### Recurrence engine -/

/-- `isMonthlyRecurringEntry`, returning the metadata: `some r` when the
entry has recurrence metadata with frequency `'monthly'`. -/
def monthlyRec (e : EntryData) : Option Recurrence :=
  match e.recurrence with
  | some r => if r.frequency = "monthly" then some r else none
  | none => none

/-- `resolveMaxOccurrenceIndex`: the largest occurrence index that should
exist up to the target date, or `none` when no expansion is needed. -/
def resolveMaxOccurrenceIndex (r : Recurrence) (targetDate : Int) : Option Int :=
  match parseDate r.anchorDate with
  | none => none
  | some anchor =>
    if targetDate < anchor then none
    else
      let monthDistance := calculateMonthDistance anchor targetDate
      if monthDistance < 0 then none
      else
        match r.termination with
        | .indefinite => some monthDistance
        | .occurrences total =>
          if total - 1 < 0 then none else some (min monthDistance (total - 1))

/-- Sort key for the date-ascending re-sort: the parsed timestamp.  (The
source sorts with the comparator `new Date(l.date).getTime() - new
Date(r.date).getTime()`; an invalid date yields `NaN`, which the sort treats
as "equal" — here an invalid date takes key 0; no verified claim sorts an
invalid date.) -/
def entryDateKey (e : EntryData) : Int :=
  (parseDate e.date).getD 0

/-- The date-ascending re-sort.  `Array.prototype.sort` is stable, and a
stable sort for a total preorder is unique, so the stable
`List.insertionSort` computes the same permutation. -/
def sortEntriesByDate (l : List EntryData) : List EntryData :=
  List.insertionSort (fun a b => entryDateKey a ≤ entryDateKey b) l

/-- The monthly-recurring entries paired with their metadata, in store
order. -/
def recPairs (l : List EntryData) : List (EntryData × Recurrence) :=
  l.filterMap (fun e => (monthlyRec e).map (fun r => (e, r)))

/-- The occurrences of one series, in encounter order (the `occurrences`
array of the `Map` entry built by `ensureRecurringEntriesUpTo`). -/
def groupOf (ps : List (EntryData × Recurrence)) (rid : String) :
    List (EntryData × Recurrence) :=
  ps.filter (fun p => p.2.recurrenceId = rid)

/-- The template the source's grouping loop selects: the template starts as
the first entry of the series and is replaced by every occurrence-index-0
entry encountered, so it ends as the last index-0 occurrence, falling back
to the first entry seen. -/
def templateOf (grp : List (EntryData × Recurrence)) : Option (EntryData × Recurrence) :=
  match (grp.filter (fun p => p.2.occurrenceIndex = 0)).getLast? with
  | some t => some t
  | none => grp.head?

/-- The occurrence indices the expansion loop materializes for one series:
every index in `[0, maxIndex]` that is neither already materialized nor
excluded. -/
def occIndices (targetDate : Int) (grp : List (EntryData × Recurrence)) : List Int :=
  match templateOf grp with
  | none => []
  | some (_, tR) =>
    match resolveMaxOccurrenceIndex tR targetDate with
    | none => []
    | some maxIdx =>
      let existing := grp.map (fun p => p.2.occurrenceIndex)
      ((List.range (maxIdx.toNat + 1)).map (fun n => Int.ofNat n)).filter
        (fun i => ¬ existing.contains i ∧ ¬ tR.excludedOccurrences.contains i)

/-- Synthesize one occurrence: fresh id, template amount/description/type,
date shifted from the anchor by `i` months, `updatedAt = now`, recurrence
metadata copied with `occurrenceIndex := i`. -/
def mkOccurrence (g : Gen) (now : Int) (tE : EntryData) (tR : Recurrence)
    (anchor i : Int) : EntryData × Gen :=
  let (nid, g') := g.fresh
  ({ id := nid,
     amount := tE.amount,
     date := toISOString (addMonths anchor i),
     description := tE.description,
     type := tE.type,
     updatedAt := some (toISOString now),
     recurrence := some { tR with occurrenceIndex := i } }, g')

/-- Materialize the occurrence entries for the given indices. -/
def mkOccList (g : Gen) (now : Int) (tE : EntryData) (tR : Recurrence)
    (anchor : Int) : List Int → List EntryData × Gen
  | [] => ([], g)
  | i :: rest =>
    let (e, g') := mkOccurrence g now tE tR anchor i
    let (l, g'') := mkOccList g' now tE tR anchor rest
    (e :: l, g'')

/-- Expansion of one series group (the body of the `grouped.forEach`). -/
def expandGroup (g : Gen) (now targetDate : Int)
    (grp : List (EntryData × Recurrence)) : List EntryData × Gen :=
  match templateOf grp with
  | none => ([], g)
  | some (tE, tR) =>
    match parseDate tR.anchorDate with
    | none => ([], g)
    | some anchor => mkOccList g now tE tR anchor (occIndices targetDate grp)

/-- Expansion of every series group, in first-encounter order of the
recurrence ids (`Map` insertion order); the new entries of all groups are
appended in that order. -/
def expandAll (g : Gen) (now targetDate : Int) (ps : List (EntryData × Recurrence)) :
    List String → List EntryData × Gen
  | [] => ([], g)
  | rid :: rest =>
    let (ns, g') := expandGroup g now targetDate (groupOf ps rid)
    let (ms, g'') := expandAll g' now targetDate ps rest
    (ns ++ ms, g'')

/-- `ensureRecurringEntriesUpTo`: generate the missing occurrences of every
monthly series up to the target date, then re-sort by date ascending.  When
nothing is generated the collection is returned untouched (the source
returns without persisting); otherwise the returned list is the one the
deferred `persistEntries` microtask writes. -/
def ensureRecurringEntriesUpTo (g : Gen) (now targetDate : Int)
    (store : List EntryData) : List EntryData × Gen :=
  if store.isEmpty then (store, g)
  else
    let ps := recPairs store
    if ps.isEmpty then (store, g)
    else
      let rids := jsSetDedup (ps.map (fun p => p.2.recurrenceId))
      let (newEntries, g') := expandAll g now targetDate ps rids
      if newEntries.isEmpty then (store, g')
      else (sortEntriesByDate (store ++ newEntries), g')

/-! ### Entry store mutations -/

/-- Serialization of an entry to its JSON document form: models
`JSON.parse(JSON.stringify(entry))` — object keys whose value is `undefined`
are dropped by `JSON.stringify`. -/
def terminationToRaw : Termination → JSValue
  | .indefinite => .obj [("mode", .str "indefinite")]
  | .occurrences t => .obj [("mode", .str "occurrences"), ("total", .num (.finite (t : ℚ)))]

/-- JSON document form of recurrence metadata. -/
def recurrenceToRaw (r : Recurrence) : JSValue :=
  .obj [("recurrenceId", .str r.recurrenceId),
        ("anchorDate", .str r.anchorDate),
        ("occurrenceIndex", .num (.finite (r.occurrenceIndex : ℚ))),
        ("frequency", .str r.frequency),
        ("termination", terminationToRaw r.termination),
        ("excludedOccurrences",
          .arr (r.excludedOccurrences.map (fun (i : Int) => JSValue.num (.finite (i : ℚ)))))]

/-- JSON document form of an entry. -/
def entryToRaw (e : EntryData) : JSValue :=
  .obj ([("id", .str e.id), ("amount", .num (.finite (e.amount : ℚ))), ("date", .str e.date)]
    ++ (match e.description with | some d => [("description", .str d)] | none => [])
    ++ [("type", .str e.type.toStr)]
    ++ (match e.updatedAt with | some u => [("updatedAt", .str u)] | none => [])
    ++ (match e.recurrence with | some r => [("recurrence", recurrenceToRaw r)] | none => []))

/-- The parsed form of `serializeEntries(entries)` (a pretty-printed JSON
array): parsing the serialized snapshot yields the array of document forms. -/
def serializeEntriesParsed (entries : List EntryData) : JSValue :=
  .arr (entries.map entryToRaw)

/-- The partial update payload of `updateEntry` (`Partial<Omit<EntryData,
'id'>> & {type?: EntryType | string}`); `none` marks an absent property. -/
structure EntryUpdates where
  amount : Option JsNumber
  date : Option String
  description : Option String
  type : Option String
  updatedAt : Option String

/-- The candidate record `{...currentEntry, ...updates, id: currentEntry.id}`
with `candidate.recurrence = currentEntry.recurrence`, as the runtime object
handed to `normalizeStoredEntry`. -/
def updateCandidate (cur : EntryData) (u : EntryUpdates) : JSValue :=
  .obj [("id", .str cur.id),
        ("amount", match u.amount with
          | some n => .num n
          | none => .num (.finite (cur.amount : ℚ))),
        ("date", .str (u.date.getD cur.date)),
        ("description", match u.description with
          | some s => .str s
          | none => match cur.description with | some s => .str s | none => .undefined),
        ("type", .str (match u.type with | some s => s | none => cur.type.toStr)),
        ("updatedAt", match u.updatedAt with
          | some s => .str s
          | none => match cur.updatedAt with | some s => .str s | none => .undefined),
        ("recurrence", match cur.recurrence with
          | some r => recurrenceToRaw r
          | none => .undefined)]

/-- Replace the first entry satisfying the predicate (the source finds the
index with `findIndex` and assigns at that index). -/
def replaceFirst (p : EntryData → Bool) (x : EntryData) : List EntryData → List EntryData
  | [] => []
  | e :: rest => if p e then x :: rest else e :: replaceFirst p x rest

/-- `updateEntry`: merge the updates into the current entry, normalize, and
persist only when some compared field (amount, date, description, type,
recurrence) changed, stamping a fresh `updatedAt`. -/
def updateEntry (g : Gen) (now : Int) (store : List EntryData) (entryId : String)
    (u : EntryUpdates) : List EntryData × Gen :=
  match store.find? (fun e => e.id = entryId) with
  | none => (store, g)
  | some cur =>
    match normalizeStoredEntry g now (updateCandidate cur u) with
    | (none, g') => (store, g')
    | (some (ne, _), g') =>
      if entryFieldsUnchanged ne cur then (store, g')
      else
        (replaceFirst (fun e => e.id = entryId)
          { ne with updatedAt := some (toISOString now) } store, g')

/-- The recurrence-removal scope. -/
inductive RemovalScope where
  | single
  | future
  | series
  deriving DecidableEq, Repr

/-- `truncateTerminationAfterCutoff`: indefinite becomes
`{occurrences, total: cutoff}`; a bounded total is clamped to the cutoff
(`total := min(total, cutoff)`), with the cutoff floored at 0. -/
def truncateTerminationAfterCutoff (t : Termination) (cutoffIndex : Int) : Termination :=
  let safeCutoff := max cutoffIndex 0
  match t with
  | .indefinite => .occurrences safeCutoff
  | .occurrences total => .occurrences (min total safeCutoff)

/-- `removeEntry` with a recurrence scope. -/
def removeEntry (now : Int) (store : List EntryData) (entryId : String)
    (scope : RemovalScope) : List EntryData :=
  match store.find? (fun e => e.id = entryId) with
  | none => store
  | some target =>
    match monthlyRec target with
    | none =>
      let updated := store.filter (fun e => e.id ≠ entryId)
      if updated.length = store.length then store else updated
    | some tr =>
      let rid := tr.recurrenceId
      let k := tr.occurrenceIndex
      if scope = .series ∨ (scope = .future ∧ k = 0) then
        let updated := store.filter (fun e =>
          !(match monthlyRec e with
            | some r => decide (r.recurrenceId = rid)
            | none => false))
        if updated.length = store.length then store else updated
      else if scope = .future then
        let retained := store.filter (fun e =>
          match monthlyRec e with
          | none => e.id ≠ entryId
          | some r =>
            if r.recurrenceId ≠ rid then e.id ≠ entryId
            else r.occurrenceIndex < k)
        if retained.length = store.length then store
        else
          let newTerm := truncateTerminationAfterCutoff tr.termination k
          retained.map (fun e =>
            match monthlyRec e with
            | some r =>
              if r.recurrenceId = rid then
                { e with
                  updatedAt := some (toISOString now),
                  recurrence := some { r with
                    termination := newTerm,
                    excludedOccurrences := r.excludedOccurrences.filter (fun x => x < k) } }
              else e
            | none => e)
      else
        let withoutTarget := store.filter (fun e => e.id ≠ entryId)
        withoutTarget.map (fun e =>
          match monthlyRec e with
          | some r =>
            if r.recurrenceId = rid then
              { e with
                updatedAt := some (toISOString now),
                recurrence := some { r with
                  excludedOccurrences := sortInts (jsSetDedup (r.excludedOccurrences ++ [k])) } }
            else e
          | none => e)

/-! ### Import and merge -/

/-- `extractImportedEntries` together with `ensureEveryEntryIsObject`:
accept a bare array, or an object exposing an `entries` (or legacy
`expenses`) array, every element of which must be object-shaped; anything
else throws. -/
def extractImportedEntries (raw : JSValue) : Except String (List JSValue) :=
  match raw with
  | .arr xs =>
    if xs.all isObjectShaped then .ok xs
    else .error "Invalid entry detected during import."
  | .obj _ =>
    match nullishDefault (getField raw "entries") (getField raw "expenses") with
    | .arr xs =>
      if xs.all isObjectShaped then .ok xs
      else .error "Invalid entry detected during import."
    | _ => .error "Invalid import payload."
  | _ => .error "Invalid import payload."

/-- Normalize every extracted element, throwing on the first element whose
normalization returns null. -/
def normalizeImportedList (g : Gen) (now : Int) :
    List JSValue → Except String (List EntryData) × Gen
  | [] => (.ok [], g)
  | v :: rest =>
    match normalizeStoredEntry g now v with
    | (none, g') => (.error "Invalid entry detected during import.", g')
    | (some (e, _), g') =>
      match normalizeImportedList g' now rest with
      | (.ok l, g'') => (.ok (e :: l), g'')
      | (.error m, g'') => (.error m, g'')

/-- `extractAndNormalizeImportedEntries`. -/
def extractAndNormalizeImportedEntries (g : Gen) (now : Int) (raw : JSValue) :
    Except String (List EntryData) × Gen :=
  match extractImportedEntries raw with
  | .error m => (.error m, g)
  | .ok xs => normalizeImportedList g now xs

/-- `importEntries` applied to a store: on success the normalized entries
replace the collection wholesale (`persistEntries(normalizedEntries)`; the
subsequent recurrence expansion persists on a later microtask); when the
extraction or normalization throws, the error propagates before any persist
and the collection is untouched. -/
def importEntriesInto (g : Gen) (now : Int) (store : List EntryData)
    (raw : JSValue) : List EntryData :=
  match (extractAndNormalizeImportedEntries g now raw).1 with
  | .ok l => l
  | .error _ => store

/-! ### Aggregator -/

/-- `calculateMonthlyTotalForType`.  The `_entries` parameter of the source
is underscore-prefixed and unused: the dataset summed is
`this.entriesSubject.value` (the store), not the provided argument.  The
`ensureRecurringEntriesUpTo(referenceDate)` call made first persists on a
later microtask, so the dataset read synchronously here is the pre-expansion
store. -/
def calculateMonthlyTotalForType (store : List EntryData)
    (_entries : List EntryData) (ty : EntryType) (referenceDate : Int) : Int :=
  store.foldl (fun total e =>
    if e.type ≠ ty then total
    else
      match parseDate e.date with
      | none => total
      | some ts =>
        if buildMonthKey ts = buildMonthKey referenceDate then total + e.amount
        else total) 0

/-! ### Merge reconciler -/

/-- The counters returned by `compareAndMergeEntries`. -/
structure MergeCounts where
  added : Nat
  updated : Nat
  skipped : Nat
  deriving DecidableEq, Repr

deriving instance DecidableEq for Except

/-- `Map.prototype.set`: update the value in place when the key exists
(insertion order preserved), otherwise append. -/
def mapSet (m : List (String × EntryData)) (key : String) (v : EntryData) :
    List (String × EntryData) :=
  if m.any (fun p => p.1 = key) then
    m.map (fun p => if p.1 = key then (key, v) else p)
  else m ++ [(key, v)]

/-- `Map.prototype.get`. -/
def mapGet (m : List (String × EntryData)) (key : String) : Option EntryData :=
  (m.find? (fun p => p.1 = key)).map (fun p => p.2)

/-- `entry.updatedAt ? new Date(entry.updatedAt) : null`: the outer `none` is
the `null` branch (an absent or empty — falsy — string); the inner option is
the `Date`'s time value, `none` modelling `NaN`. -/
def jsUpdatedAtDate (e : EntryData) : Option (Option Int) :=
  match e.updatedAt with
  | none => none
  | some s => if s = "" then none else some (parseDate s)

/-- `importedUpdatedAt && (!existingUpdatedAt || importedUpdatedAt >
existingUpdatedAt)`: comparisons against an invalid date (`NaN`) are false. -/
def importedIsMoreRecent (ie ex : EntryData) : Bool :=
  match jsUpdatedAtDate ie with
  | none => false
  | some ti =>
    match jsUpdatedAtDate ex with
    | none => true
    | some te =>
      match ti, te with
      | some a, some b => b < a
      | _, _ => false

/-- The body of the merge loop for one imported entry. -/
def mergeStep (m : List (String × EntryData)) (c : MergeCounts) (ie : EntryData) :
    List (String × EntryData) × MergeCounts :=
  match mapGet m ie.id with
  | none => (mapSet m ie.id ie, { c with added := c.added + 1 })
  | some ex =>
    if entryFieldsUnchanged ie ex then (m, { c with skipped := c.skipped + 1 })
    else
      (mapSet m ie.id (if importedIsMoreRecent ie ex then ie else ex),
        { c with updated := c.updated + 1 })

/-- The id-keyed map built from the current entries. -/
def buildEntriesMap (store : List EntryData) : List (String × EntryData) :=
  store.foldl (fun m e => mapSet m e.id e) []

/-- `compareAndMergeEntries` on an already-parsed document (the `JSON.parse`
step is modelled by taking the parsed value; a parse failure throws before
anything is read or written).  Returns the counters and the merged
collection that `persistEntries` writes (the subsequent recurrence expansion
persists on a later microtask). -/
def compareAndMergeEntries (g : Gen) (now : Int) (parsed : JSValue)
    (store : List EntryData) : Except String (MergeCounts × List EntryData) × Gen :=
  match extractAndNormalizeImportedEntries g now parsed with
  | (.error m, g') => (.error m, g')
  | (.ok imported, g') =>
    let st := imported.foldl (fun st ie => mergeStep st.1 st.2 ie)
      (buildEntriesMap store, ⟨0, 0, 0⟩)
    (.ok (st.2, st.1.map (fun p => p.2)), g')

/-! ### Concrete fixtures used by the scenario theorems -/

/-- A deterministic id supply for concrete runs. -/
def mkGen (prefixStr : String) : Gen :=
  ⟨fun n => prefixStr ++ toString n, 0⟩

/-- Scenario A anchor entry: monthly series anchored 2024-01-15 (noon UTC),
indefinite termination, occurrence index 0, no exclusions. -/
def scenarioAEntry : EntryData :=
  { id := "a0", amount := 50000, date := "2024-01-15T12:00:00.000Z",
    description := some "rent", type := .EXPENSE,
    updatedAt := some "2024-01-15T12:00:00.000Z",
    recurrence := some
      { recurrenceId := "R", anchorDate := "2024-01-15T12:00:00.000Z",
        occurrenceIndex := 0, frequency := "monthly", termination := .indefinite,
        excludedOccurrences := [] } }

/-- Scenario A target date, 2024-04-20. -/
def scenarioATarget : Int := (parseDate "2024-04-20").getD 0

/-- A concrete "now" for the scenario runs. -/
def scenarioANow : Int := (parseDate "2024-04-21T08:00:00.000Z").getD 0

/-- The store after the Scenario A expansion. -/
def scenarioAResult : List EntryData :=
  (ensureRecurringEntriesUpTo (mkGen "gid-") scenarioANow scenarioATarget [scenarioAEntry]).1

/-- The recurrence carried by the Scenario B removal target (index 2 of the
Scenario A series). -/
def scenarioBRec : Recurrence :=
  { recurrenceId := "R", anchorDate := "2024-01-15T12:00:00.000Z",
    occurrenceIndex := 2, frequency := "monthly", termination := .indefinite,
    excludedOccurrences := [] }

/-- The Scenario B removal target: the materialized index-2 occurrence
(`gid-1`) of the Scenario A store. -/
def scenarioBTargetEntry : EntryData :=
  { id := "gid-1", amount := 50000, date := "2024-03-15T12:00:00.000Z",
    description := some "rent", type := .EXPENSE,
    updatedAt := some "2024-04-21T08:00:00.000Z",
    recurrence := some scenarioBRec }

/-- Stores refuting C2 as universally quantified: two stored entries of one
series both carry occurrence index 0 but disagree on the anchor date (each
entry is individually well-formed — per-entry normalization enforces no
cross-entry consistency, so such a store can be restored from storage). -/
def inconsistentSeriesEntryA : EntryData :=
  { id := "x1", amount := 10, date := "2024-06-20T10:00:00.000Z",
    description := none, type := .EXPENSE, updatedAt := none,
    recurrence := some
      { recurrenceId := "R", anchorDate := "2024-01-15T12:00:00.000Z",
        occurrenceIndex := 0, frequency := "monthly", termination := .indefinite,
        excludedOccurrences := [] } }

/-- Companion of `inconsistentSeriesEntryA`: same series id, anchor two
months later, date sorting earlier. -/
def inconsistentSeriesEntryB : EntryData :=
  { id := "x2", amount := 10, date := "2024-05-20T10:00:00.000Z",
    description := none, type := .EXPENSE, updatedAt := none,
    recurrence := some
      { recurrenceId := "R", anchorDate := "2024-03-10T12:00:00.000Z",
        occurrenceIndex := 0, frequency := "monthly", termination := .indefinite,
        excludedOccurrences := [] } }

/-- First expansion of the inconsistent store up to 2024-04-20. -/
def inconsistentRun1 : List EntryData :=
  (ensureRecurringEntriesUpTo (mkGen "gid-") scenarioANow scenarioATarget
    [inconsistentSeriesEntryA, inconsistentSeriesEntryB]).1

/-- A series whose bounded termination total (1) is smaller than the
occurrence index of a materialized entry: index 0 entry. -/
def boundedSeriesEntry0 : EntryData :=
  { id := "y0", amount := 1, date := "2024-01-15T12:00:00.000Z", description := none,
    type := .EXPENSE, updatedAt := none,
    recurrence := some
      { recurrenceId := "S", anchorDate := "2024-01-15T12:00:00.000Z",
        occurrenceIndex := 0, frequency := "monthly",
        termination := .occurrences 1, excludedOccurrences := [] } }

/-- Same series: a materialized entry at occurrence index 2 (restorable from
storage; per-entry normalization does not compare the index against the
termination total). -/
def boundedSeriesEntry2 : EntryData :=
  { boundedSeriesEntry0 with
      id := "y2", date := "2024-03-15T12:00:00.000Z",
      recurrence := some
        { recurrenceId := "S", anchorDate := "2024-01-15T12:00:00.000Z",
          occurrenceIndex := 2, frequency := "monthly",
          termination := .occurrences 1, excludedOccurrences := [] } }

/-- A single income entry dated inside May 2024 (Santiago month `2024-05`). -/
def mayIncomeEntry : EntryData :=
  { id := "m1", amount := 100, date := "2024-05-10T12:00:00.000Z", description := none,
    type := .INCOME, updatedAt := none, recurrence := none }

/-- Reference date inside May 2024. -/
def mayReference : Int := (parseDate "2024-05-20").getD 0

/-- The month-membership test of the claim for the Aggregator: the type
matches and the entry's date (when it parses) falls in the same
reference-timezone month as the reference date. -/
def monthMatches (ty : EntryType) (referenceDate : Int) (e : EntryData) : Bool :=
  decide (e.type = ty) &&
    (match parseDate e.date with
     | some ts => decide (buildMonthKey ts = buildMonthKey referenceDate)
     | none => false)

/-- The aggregation fold adds exactly the amounts of the matching entries. -/
theorem foldl_monthlyTotal (ty : EntryType) (referenceDate : Int) :
    ∀ (l : List EntryData) (acc : Int),
      l.foldl (fun total e =>
        if e.type ≠ ty then total
        else
          match parseDate e.date with
          | none => total
          | some ts =>
            if buildMonthKey ts = buildMonthKey referenceDate then total + e.amount
            else total) acc
      = acc + ((l.filter (monthMatches ty referenceDate)).map (fun e => e.amount)).sum := by
  intro l
  induction l with
  | nil => intro acc; simp
  | cons e rest ih =>
    intro acc
    have hstep :
        (if e.type ≠ ty then acc
         else
           match parseDate e.date with
           | none => acc
           | some ts =>
             if buildMonthKey ts = buildMonthKey referenceDate then acc + e.amount
             else acc)
        = acc + (if monthMatches ty referenceDate e then e.amount else 0) := by
      by_cases hty : e.type = ty
      · cases hpd : parseDate e.date with
        | none => simp [monthMatches, hty, hpd]
        | some ts =>
          by_cases hkey : buildMonthKey ts = buildMonthKey referenceDate
          · simp [monthMatches, hty, hpd, hkey]
          · simp [monthMatches, hty, hpd, hkey]
      · simp [monthMatches, hty]
    simp only [List.foldl_cons]
    rw [hstep, ih, List.filter_cons]
    cases hm : monthMatches ty referenceDate e
    · simp [hm]
    · simp only [hm, if_pos, List.map_cons, List.sum_cons]
      omega

/-! ### Normalizer lemmas -/

/-- Both branches of `normalizeDate` return a `toISOString` image — a valid
ISO-8601 UTC instant. -/
theorem normalizeDate_isISO (now : Int) (w : JSValue) :
    ∃ t : Int, (normalizeDate now w).1 = toISOString t := by
  cases w with
  | str s =>
    refine ⟨(match parseDate s with | some t => t | none => now), ?_⟩
    show (match parseDate s with
      | some t => (toISOString t, false)
      | none => (toISOString now, true)).1 = _
    cases hp : parseDate s
    · rfl
    · rfl
  | undefined => exact ⟨now, rfl⟩
  | null => exact ⟨now, rfl⟩
  | bool b => exact ⟨now, rfl⟩
  | num n => exact ⟨now, rfl⟩
  | arr xs => exact ⟨now, rfl⟩
  | obj fields => exact ⟨now, rfl⟩

/-- `normalizeType` always lands in the enum. -/
theorem normalizeType_enum (w : JSValue) :
    (normalizeType w).1 = .EXPENSE ∨ (normalizeType w).1 = .INCOME := by
  cases w with
  | str s =>
    simp only [normalizeType]
    split_ifs <;> simp
  | undefined => exact Or.inl rfl
  | null => exact Or.inl rfl
  | bool b => exact Or.inl rfl
  | num n => exact Or.inl rfl
  | arr xs => exact Or.inl rfl
  | obj fields => exact Or.inl rfl

/-- `normalizeAmount` on a finite number truncates toward zero. -/
theorem normalizeAmount_finite (q : ℚ) :
    normalizeAmount (.num (.finite q)) = ratTrunc q := rfl

/-- `normalizeAmount` on anything that is not a finite number parses the
string form base-10, defaulting to 0. -/
theorem normalizeAmount_notFinite (w : JSValue)
    (h : ∀ q : ℚ, w ≠ .num (.finite q)) :
    normalizeAmount w =
      (jsParseInt (jsToString (nullishDefault w (.str "0")))).getD 0 := by
  cases w with
  | num n =>
    cases n with
    | finite q => exact absurd rfl (h q)
    | nan => rfl
    | posInf => rfl
    | negInf => rfl
  | undefined => rfl
  | null => rfl
  | bool b => rfl
  | str s => rfl
  | arr xs => rfl
  | obj fields => rfl

/-- `normalizeStoredEntry` returns null exactly on non-object-shaped input. -/
theorem normalizeStoredEntry_none_iff (g : Gen) (now : Int) (v : JSValue) :
    (normalizeStoredEntry g now v).1 = none ↔ isObjectShaped v = false := by
  by_cases hobj : isObjectShaped v = true
  · constructor
    · intro h
      have : ¬¬ isObjectShaped v = true := not_not_intro hobj
      unfold normalizeStoredEntry at h
      rw [if_neg this] at h
      exact Option.noConfusion h
    · intro hf; rw [hobj] at hf; exact absurd hf (by decide)
  · have hcond : ¬ isObjectShaped v = true := hobj
    have : (normalizeStoredEntry g now v).1 = none := by
      unfold normalizeStoredEntry
      rw [if_pos hcond]
    exact ⟨fun _ => by cases hfb : isObjectShaped v; rfl; exact absurd hfb hobj,
      fun _ => this⟩

/-- Shape and field characterisation of `normalizeStoredEntry` on
object-shaped input: the result is `some` and its amount, date and type come
from the corresponding field normalizers. -/
theorem normalizeStoredEntry_objectShaped (g : Gen) (now : Int) (v : JSValue)
    (hobj : isObjectShaped v = true) :
    ∃ e sync, (normalizeStoredEntry g now v).1 = some (e, sync)
      ∧ e.amount = normalizeAmount (getField v "amount")
      ∧ e.date = (normalizeDate now (getField v "date")).1
      ∧ e.type = (normalizeType (getField v "type")).1 := by
  simp only [normalizeStoredEntry, hobj, not_true, Bool.not_eq_true, if_neg,
    Bool.true_eq_false, if_false]
  exact ⟨_, _, rfl, rfl, rfl, rfl⟩

/-! ### Canonical entries

The serialization round-trip lemma behind the self-merge claim: a canonical
entry survives `JSON.stringify` → `JSON.parse` → `normalizeStoredEntry` with
every compared field intact. -/

/-- The string is the UTC ISO form of a valid instant (it parses, and
printing the parse reproduces it). -/
def isoRoundTrip (s : String) : Bool :=
  match parseDate s with
  | some t => decide (toISOString t = s)
  | none => false

/-- Strictly ascending (hence sorted and duplicate-free) non-negative
indices. -/
def sortedNonneg : List Int → Bool
  | [] => true
  | [x] => decide (0 ≤ x)
  | x :: y :: rest => decide (0 ≤ x) && decide (x < y) && sortedNonneg (y :: rest)

/-- A termination the normalizer accepts verbatim. -/
def canonicalTermination : Termination → Bool
  | .indefinite => true
  | .occurrences total => decide (1 ≤ total)

/-- Recurrence metadata the normalizer accepts verbatim. -/
def canonicalRecurrence (r : Recurrence) : Bool :=
  decide (r.frequency = "monthly") && decide (jsTrim r.recurrenceId ≠ "")
    && isoRoundTrip r.anchorDate && decide (0 ≤ r.occurrenceIndex)
    && canonicalTermination r.termination && sortedNonneg r.excludedOccurrences

/-- An entry satisfying the data-model invariants, which normalization of
its serialized form reproduces field-for-field. -/
def canonicalEntry (e : EntryData) : Bool :=
  decide (jsTrim e.id ≠ "") && isoRoundTrip e.date
    && (match e.description with
        | none => true
        | some s => decide (jsTrim s = s) && decide (s ≠ ""))
    && (match e.recurrence with
        | none => true
        | some r => canonicalRecurrence r)

/-- Field lookup on a serialized entry. -/
theorem getField_entryToRaw (e : EntryData) :
    getField (entryToRaw e) "id" = .str e.id
      ∧ getField (entryToRaw e) "amount" = .num (.finite (e.amount : ℚ))
      ∧ getField (entryToRaw e) "date" = .str e.date
      ∧ getField (entryToRaw e) "description"
          = (match e.description with | some d => .str d | none => .undefined)
      ∧ getField (entryToRaw e) "type" = .str e.type.toStr
      ∧ getField (entryToRaw e) "updatedAt"
          = (match e.updatedAt with | some u => .str u | none => .undefined)
      ∧ getField (entryToRaw e) "recurrence"
          = (match e.recurrence with | some r => recurrenceToRaw r | none => .undefined) := by
  obtain ⟨i, a, d, ds, ty, ua, rc⟩ := e
  cases ds <;> cases ua <;> cases rc <;>
    exact ⟨rfl, rfl, rfl, rfl, rfl, rfl, rfl⟩

/-- `normalizeDate` accepts a round-tripping ISO string verbatim. -/
theorem normalizeDate_roundTrip (now : Int) (s : String)
    (h : isoRoundTrip s = true) : normalizeDate now (.str s) = (s, false) := by
  unfold isoRoundTrip at h
  show (match parseDate s with
    | some t => (toISOString t, false)
    | none => (toISOString now, true)) = (s, false)
  cases hp : parseDate s with
  | none =>
    rw [hp] at h
    exact absurd (show false = true from h) (by decide)
  | some t =>
    rw [hp] at h
    have hts : toISOString t = s :=
      of_decide_eq_true (show decide (toISOString t = s) = true from h)
    show (toISOString t, false) = (s, false)
    rw [hts]

/-- `normalizeType` accepts an exact enum string verbatim. -/
theorem normalizeType_exact (ty : EntryType) :
    normalizeType (.str ty.toStr) = (ty, false) := by
  cases ty <;> rfl

/-- Truncating an integer-valued rational returns the integer. -/
theorem ratTrunc_intCast (n : Int) : ratTrunc (n : ℚ) = n := by
  unfold ratTrunc
  rw [Rat.num_intCast, Rat.den_intCast]
  simp

/-- `normalizeTerminationInput` accepts a serialized canonical termination
verbatim. -/
theorem canonicalTermination_normalize (t : Termination)
    (h : canonicalTermination t = true) :
    normalizeTerminationInput (terminationToRaw t) = (some t, false) := by
  cases t with
  | indefinite => rfl
  | occurrences total =>
    have h1 : (1 : Int) ≤ total := of_decide_eq_true h
    have h1q : (1 : ℚ) ≤ ((total : Int) : ℚ) := by exact_mod_cast h1
    show (if (1 : ℚ) ≤ ((total : Int) : ℚ) then
        (some (Termination.occurrences (ratTrunc ((total : Int) : ℚ))),
          decide (((ratTrunc ((total : Int) : ℚ) : Int) : ℚ) ≠ ((total : Int) : ℚ)))
      else (none, true)) = (some (.occurrences total), false)
    rw [if_pos h1q, ratTrunc_intCast]
    simp

/-- The element fold of `normalizeExcludedOccurrences` keeps serialized
non-negative integers verbatim. -/
theorem excludedFold_id (xs : List Int) (hnn : ∀ i ∈ xs, 0 ≤ i) :
    ∀ (acc : List Int) (b : Bool),
      (xs.map (fun (i : Int) => JSValue.num (.finite (i : ℚ)))).foldl
        excludedStep (acc, b)
      = (acc ++ xs, b) := by
  induction xs with
  | nil => intro acc b; simp
  | cons i rest ih =>
    intro acc b
    have hi : 0 ≤ i := hnn i (List.mem_cons_self i rest)
    have hcond : ((i : ℚ).den = 1 ∧ 0 ≤ (i : ℚ).num) := by
      constructor
      · rw [Rat.den_intCast]
      · rw [Rat.num_intCast]; exact hi
    have hstep : excludedStep (acc, b) (JSValue.num (.finite (i : ℚ)))
        = (acc ++ [i], b) := by
      show (if (i : ℚ).den = 1 ∧ 0 ≤ (i : ℚ).num
        then ((acc, b).1 ++ [(i : ℚ).num], (acc, b).2)
        else ((acc, b).1, true)) = (acc ++ [i], b)
      rw [if_pos hcond, Rat.num_intCast]
    simp only [List.map_cons, List.foldl_cons, hstep]
    rw [ih (fun j hj => hnn j (List.mem_cons_of_mem i hj)) (acc ++ [i]) b]
    simp

/-- `jsSetDedup` is the identity on duplicate-free lists. -/
theorem jsSetDedup_nodup {α : Type} [DecidableEq α] (xs : List α) (h : xs.Nodup) :
    jsSetDedup xs = xs := by
  unfold jsSetDedup
  suffices haux : ∀ (l : List α) (seen : List α), l.Nodup → (∀ x ∈ l, x ∉ seen) →
      jsSetDedupAux seen l = l by
    exact haux xs [] h (fun x _ => List.not_mem_nil x)
  intro l
  induction l with
  | nil => intro seen _ _; rfl
  | cons x rest ih =>
    intro seen hnd hns
    rw [List.nodup_cons] at hnd
    unfold jsSetDedupAux
    rw [if_neg (hns x (List.mem_cons_self x rest))]
    rw [ih (x :: seen) hnd.2 ?_]
    intro y hy
    rw [List.mem_cons]
    rintro (hyx | hyseen)
    · exact hnd.1 (hyx ▸ hy)
    · exact hns y (List.mem_cons_of_mem x hy) hyseen

/-- The strict-chain canonicity implies sortedness, distinctness and
non-negativity. -/
theorem sortedNonneg_spec (xs : List Int) (h : sortedNonneg xs = true) :
    List.Sorted (fun a b => a ≤ b) xs ∧ xs.Nodup ∧ ∀ i ∈ xs, 0 ≤ i := by
  induction xs with
  | nil => exact ⟨List.sorted_nil, List.nodup_nil, by intro i hi; cases hi⟩
  | cons x rest ih =>
    cases rest with
    | nil =>
      refine ⟨List.sorted_singleton x, List.nodup_singleton x, ?_⟩
      intro i hi
      rw [List.mem_singleton] at hi
      rw [hi]
      exact of_decide_eq_true h
    | cons y rest2 =>
      unfold sortedNonneg at h
      rw [Bool.and_eq_true, Bool.and_eq_true] at h
      obtain ⟨⟨hx0, hxy⟩, htail⟩ := h
      obtain ⟨hs, hnd, hnn⟩ := ih htail
      have hx0' : (0 : Int) ≤ x := of_decide_eq_true hx0
      have hxy' : x < y := of_decide_eq_true hxy
      have hxall : ∀ z ∈ y :: rest2, x < z := by
        intro z hz
        rcases List.mem_cons.mp hz with hzy | hz2
        · rw [hzy]; exact hxy'
        · exact lt_of_lt_of_le hxy' (List.rel_of_sorted_cons hs z hz2)
      refine ⟨List.sorted_cons.mpr ⟨fun z hz => le_of_lt (hxall z hz), hs⟩, ?_, ?_⟩
      · rw [List.nodup_cons]
        exact ⟨fun hmem => lt_irrefl x (hxall x hmem), hnd⟩
      · intro i hi
        rcases List.mem_cons.mp hi with hix | hi2
        · rw [hix]; exact hx0'
        · exact hnn i hi2

/-- `normalizeExcludedOccurrences` accepts a serialized canonical exclusion
list verbatim. -/
theorem canonicalExcluded_normalize (xs : List Int) (h : sortedNonneg xs = true) :
    normalizeExcludedOccurrences
        (.arr (xs.map (fun (i : Int) => JSValue.num (.finite (i : ℚ))))) = (xs, false) := by
  obtain ⟨hs, hnd, hnn⟩ := sortedNonneg_spec xs h
  show (sortInts (jsSetDedup ((xs.map (fun (i : Int) => JSValue.num (.finite (i : ℚ)))).foldl
          excludedStep ([], false)).1),
      ((xs.map (fun (i : Int) => JSValue.num (.finite (i : ℚ)))).foldl
          excludedStep ([], false)).2
        || decide ((sortInts (jsSetDedup ((xs.map (fun (i : Int) => JSValue.num
              (.finite (i : ℚ)))).foldl excludedStep ([], false)).1)).length
            ≠ ((xs.map (fun (i : Int) => JSValue.num (.finite (i : ℚ)))).foldl
              excludedStep ([], false)).1.length))
    = (xs, false)
  rw [excludedFold_id xs hnn [] false]
  rw [List.nil_append, jsSetDedup_nodup xs hnd]
  rw [show sortInts xs = xs from List.Sorted.insertionSort_eq hs]
  simp

/-- The id-keeping rule keeps a trim-nonempty string verbatim. -/
theorem normalizeIdCandidate_keep (g : Gen) (s : String) (h : jsTrim s ≠ "") :
    normalizeIdCandidate g (.str s) = (s, false, g) := by
  show (if jsTrim s ≠ "" then (s, false, g)
    else ((g.fresh).1, decide ((g.fresh).1 ≠ s), (g.fresh).2)) = (s, false, g)
  rw [if_pos h]

/-- The anchor rule keeps a round-tripping ISO string verbatim. -/
theorem normalizeAnchor_roundTrip (s fallback : String) (h : isoRoundTrip s = true) :
    normalizeAnchor (.str s) fallback = (s, false) := by
  unfold isoRoundTrip at h
  show ((match parseDate s with | some t => toISOString t | none => fallback),
    decide ((match parseDate s with | some t => toISOString t | none => fallback) ≠ s))
    = (s, false)
  cases hp : parseDate s with
  | none =>
    rw [hp] at h
    exact absurd (show false = true from h) (by decide)
  | some t =>
    rw [hp] at h
    have hts : toISOString t = s :=
      of_decide_eq_true (show decide (toISOString t = s) = true from h)
    show (toISOString t, decide (toISOString t ≠ s)) = (s, false)
    rw [hts]
    simp

/-- The occurrence-index rule keeps a non-negative integer verbatim. -/
theorem normalizeOccurrenceIndex_int (idx : Int) (h : 0 ≤ idx) :
    normalizeOccurrenceIndex (.num (.finite (idx : ℚ))) = (idx, false) := by
  have hc : ((idx : ℚ).den = 1 ∧ 0 ≤ (idx : ℚ).num) := by
    constructor
    · rw [Rat.den_intCast]
    · rw [Rat.num_intCast]; exact h
  show (if (idx : ℚ).den = 1 ∧ 0 ≤ (idx : ℚ).num then ((idx : ℚ).num, false)
    else (0, true)) = (idx, false)
  rw [if_pos hc, Rat.num_intCast]

/-- `normalizeStoredRecurrence` accepts serialized canonical recurrence
metadata verbatim, with no resync flag and no fresh id drawn. -/
theorem canonicalRecurrence_normalize (g : Gen) (fallback : String) (r : Recurrence)
    (h : canonicalRecurrence r = true) :
    normalizeStoredRecurrence g (recurrenceToRaw r) fallback = ((some r, false), g) := by
  obtain ⟨rid, anch, idx, freq, term, excl⟩ := r
  unfold canonicalRecurrence at h
  simp only [Bool.and_eq_true] at h
  obtain ⟨⟨⟨⟨⟨hfreq, hrid⟩, hanch⟩, hidx⟩, hterm⟩, hexcl⟩ := h
  have hfreq' : freq = "monthly" := of_decide_eq_true hfreq
  subst hfreq'
  have hrid' : jsTrim rid ≠ "" := of_decide_eq_true hrid
  have hidx' : (0 : Int) ≤ idx := of_decide_eq_true hidx
  show (match (normalizeTerminationInput (terminationToRaw term)).1 with
      | none =>
        (((none, true) : Option Recurrence × Bool),
          (normalizeIdCandidate g (.str rid)).2.2)
      | some t' =>
        ((some (Recurrence.mk (normalizeIdCandidate g (.str rid)).1
            (normalizeAnchor (.str anch) fallback).1
            (normalizeOccurrenceIndex (.num (.finite (idx : ℚ)))).1
            "monthly" t'
            (normalizeExcludedOccurrences
              (.arr (excl.map (fun (i : Int) => JSValue.num (.finite (i : ℚ)))))).1),
          (normalizeIdCandidate g (.str rid)).2.1
            || (normalizeAnchor (.str anch) fallback).2
            || (normalizeOccurrenceIndex (.num (.finite (idx : ℚ)))).2
            || (normalizeTerminationInput (terminationToRaw term)).2
            || (normalizeExcludedOccurrences
              (.arr (excl.map (fun (i : Int) => JSValue.num (.finite (i : ℚ)))))).2),
          (normalizeIdCandidate g (.str rid)).2.2))
    = ((some (Recurrence.mk rid anch idx "monthly" term excl), false), g)
  rw [canonicalTermination_normalize term hterm,
    normalizeIdCandidate_keep g rid hrid',
    normalizeAnchor_roundTrip anch fallback hanch,
    normalizeOccurrenceIndex_int idx hidx',
    canonicalExcluded_normalize excl hexcl]
  rfl

/-- The `updatedAt` a canonical entry carries after normalization (the only
field the round trip may rewrite — it is not compared by the merge). -/
def normalizedUpdatedAt (now : Int) (e : EntryData) : Option String :=
  match e.updatedAt with
  | none => none
  | some u => some (normalizeDate now (.str u)).1

/-- The resync flag normalization reports for a canonical entry: everything
is accepted verbatim except possibly `updatedAt`. -/
def normalizedSync (now : Int) (e : EntryData) : Bool :=
  match e.updatedAt with
  | none => false
  | some u => (normalizeDate now (.str u)).2

/-- Serialization round trip: normalizing the document form of a canonical
entry reproduces it verbatim — except possibly `updatedAt` — with no fresh
id drawn. -/
theorem canonical_normalize (g : Gen) (now : Int) (e : EntryData)
    (h : canonicalEntry e = true) :
    normalizeStoredEntry g now (entryToRaw e)
      = (some ({e with updatedAt := normalizedUpdatedAt now e},
          normalizedSync now e), g) := by
  obtain ⟨hID, hAM, hDA, hDE, hTY, hUA, hRE⟩ := getField_entryToRaw e
  have hobj : isObjectShaped (entryToRaw e) = true := by
    obtain ⟨i, a, d, ds, ty, ua, rc⟩ := e
    cases ds <;> cases ua <;> cases rc <;> rfl
  unfold canonicalEntry at h
  simp only [Bool.and_eq_true] at h
  obtain ⟨⟨⟨hid, hdate⟩, hdesc⟩, hrec⟩ := h
  have hid' : jsTrim e.id ≠ "" := of_decide_eq_true hid
  simp only [normalizeStoredEntry, hobj, eq_self_iff_true, not_true, if_false,
    hID, hAM, hDA, hDE, hTY, hUA, hRE, normalizedUpdatedAt, normalizedSync,
    normalizeDate_roundTrip now e.date hdate, normalizeAmount_finite, ratTrunc_intCast,
    normalizeType_exact]
  cases hrc : e.recurrence with
  | none =>
    simp only [normalizeStoredRecurrence, normalizeIdCandidate_keep g e.id hid']
    cases hds : e.description with
    | none =>
      cases hua : e.updatedAt with
      | none => simp
      | some u => simp
    | some s =>
      have hdd : (decide (jsTrim s = s) && decide (s ≠ "")) = true := by
        rw [hds] at hdesc; exact hdesc
      rw [Bool.and_eq_true] at hdd
      have hd1 : jsTrim s = s := of_decide_eq_true hdd.1
      have hd2 : s ≠ "" := of_decide_eq_true hdd.2
      cases hua : e.updatedAt with
      | none => simp [hd1, hd2]
      | some u => simp [hd1, hd2]
  | some r =>
    have hrec' : canonicalRecurrence r = true := by
      rw [hrc] at hrec; exact hrec
    rw [canonicalRecurrence_normalize g ((e.date, false) : String × Bool).1 r hrec']
    simp only [normalizeIdCandidate_keep g e.id hid']
    cases hds : e.description with
    | none =>
      cases hua : e.updatedAt with
      | none => simp
      | some u => simp
    | some s =>
      have hdd : (decide (jsTrim s = s) && decide (s ≠ "")) = true := by
        rw [hds] at hdesc; exact hdesc
      rw [Bool.and_eq_true] at hdd
      have hd1 : jsTrim s = s := of_decide_eq_true hdd.1
      have hd2 : s ≠ "" := of_decide_eq_true hdd.2
      cases hua : e.updatedAt with
      | none => simp [hd1, hd2]
      | some u => simp [hd1, hd2]

/-- A serialized entry is object-shaped. -/
theorem entryToRaw_objectShaped (e : EntryData) : isObjectShaped (entryToRaw e) = true := by
  obtain ⟨i, a, d, ds, ty, ua, rc⟩ := e
  cases ds <;> cases ua <;> cases rc <;> rfl

/-- `areRecurrencesEqual` is reflexive. -/
theorem areRecurrencesEqual_refl (o : Option Recurrence) :
    areRecurrencesEqual o o = true := by
  cases o with
  | none => rfl
  | some r =>
    obtain ⟨rid, anch, idx, fr, term, excl⟩ := r
    cases term <;>
      simp [areRecurrencesEqual, areTerminationsEqual, areExcludedOccurrencesEqual]

/-- Rewriting only `updatedAt` leaves every compared field unchanged. -/
theorem fieldsUnchanged_updatedAt (e : EntryData) (ua : Option String) :
    entryFieldsUnchanged { e with updatedAt := ua } e = true := by
  unfold entryFieldsUnchanged
  simp [areRecurrencesEqual_refl]

/-- Looking an entry's id up in the id-keyed map of a duplicate-free store
finds that entry. -/
theorem mapGet_entries (ents : List EntryData)
    (hnd : (ents.map (fun e => e.id)).Nodup) (e : EntryData) (he : e ∈ ents) :
    mapGet (ents.map (fun x => (x.id, x))) e.id = some e := by
  induction ents with
  | nil => cases he
  | cons x rest ih =>
    rw [List.map_cons, List.nodup_cons] at hnd
    rcases List.mem_cons.mp he with hex | hrest
    · subst hex
      unfold mapGet
      rw [List.map_cons, List.find?_cons_of_pos _ (by simp)]
      rfl
    · have hne : x.id ≠ e.id := by
        intro hcontra
        exact hnd.1 (hcontra ▸ List.mem_map_of_mem (fun y => y.id) hrest)
      unfold mapGet
      rw [List.map_cons, List.find?_cons_of_neg _ (by simpa using hne)]
      exact ih hnd.2 hrest

/-- Normalizing the serialized forms of canonical entries succeeds and
reproduces them (modulo `updatedAt`), drawing no fresh ids. -/
theorem normalizeImportedList_canonical (now : Int) (entries : List EntryData)
    (hcanon : ∀ e ∈ entries, canonicalEntry e = true) :
    ∀ g, normalizeImportedList g now (entries.map entryToRaw)
      = (.ok (entries.map
          (fun e => { e with updatedAt := normalizedUpdatedAt now e })), g) := by
  induction entries with
  | nil => intro g; rfl
  | cons e rest ih =>
    intro g
    have hc := hcanon e (List.mem_cons_self e rest)
    have hih := ih (fun x hx => hcanon x (List.mem_cons_of_mem e hx)) g
    rw [List.map_cons]
    simp only [normalizeImportedList, canonical_normalize g now e hc, hih,
      List.map_cons]

/-- A local record whose `updatedAt` is absent. -/
def conflictLocalEntry : EntryData :=
  { id := "x", amount := 10, date := "2024-03-05T12:00:00.000Z", description := none,
    type := .EXPENSE, updatedAt := none, recurrence := none }

/-- The conflicting imported record: same id, different amount, `updatedAt`
present. -/
def conflictImportedEntry : EntryData :=
  { conflictLocalEntry with amount := 20, updatedAt := some "2024-03-06T12:00:00.000Z" }

/-- The data-model well-formedness of `updatedAt`: absent, or a non-empty
string holding a valid instant. -/
def wellFormedUpdatedAt (e : EntryData) : Bool :=
  match e.updatedAt with
  | none => true
  | some s => decide (s ≠ "") && (parseDate s).isSome

/-- The effective update time used by the claim's recency rule: the parsed
`updatedAt` instant, absent (`none`) when the field is missing or empty. -/
def effUpdatedTime (e : EntryData) : Option Int :=
  match e.updatedAt with
  | none => none
  | some s => if s = "" then none else parseDate s

/-- The claim's conflict rule: the imported record is strictly newer —
absent treated as older than any present timestamp. -/
def claimNewer (ie ex : EntryData) : Bool :=
  match effUpdatedTime ie, effUpdatedTime ex with
  | some ti, some te => te < ti
  | some _, none => true
  | none, _ => false

/-- Under well-formed `updatedAt` fields the source's truthiness-and-`NaN`
laden comparison agrees with the claim's recency rule. -/
theorem importedIsMoreRecent_eq_claimNewer (ie ex : EntryData)
    (hie : wellFormedUpdatedAt ie = true) (hex : wellFormedUpdatedAt ex = true) :
    importedIsMoreRecent ie ex = claimNewer ie ex := by
  unfold importedIsMoreRecent claimNewer jsUpdatedAtDate effUpdatedTime
  unfold wellFormedUpdatedAt at hie hex
  cases hu1 : ie.updatedAt with
  | none => rfl
  | some s1 =>
    rw [hu1] at hie
    have hs1 : ¬ s1 = "" := by
      intro h; rw [h] at hie; exact absurd hie (by decide)
    have hsome1 : (parseDate s1).isSome = true := by
      rw [Bool.and_eq_true] at hie; exact hie.2
    simp only [if_neg hs1]
    cases hu2 : ex.updatedAt with
    | none =>
      cases hp1 : parseDate s1 with
      | none => rw [hp1] at hsome1; exact absurd hsome1 (by decide)
      | some t1 => rfl
    | some s2 =>
      rw [hu2] at hex
      have hs2 : ¬ s2 = "" := by
        intro h; rw [h] at hex; exact absurd hex (by decide)
      have hsome2 : (parseDate s2).isSome = true := by
        rw [Bool.and_eq_true] at hex; exact hex.2
      simp only [if_neg hs2]
      cases hp1 : parseDate s1 with
      | none => rfl
      | some t1 =>
        cases hp2 : parseDate s2 with
        | none => rw [hp2] at hsome2; exact absurd hsome2 (by decide)
        | some t2 => rfl

/-- `mapGet` misses exactly when no pair carries the key. -/
theorem mapGet_none_any (m : List (String × EntryData)) (k : String)
    (h : mapGet m k = none) : m.any (fun p => p.1 = k) = false := by
  unfold mapGet at h
  cases hf : m.find? (fun p => p.1 = k) with
  | some p => rw [hf] at h; exact Option.noConfusion h
  | none =>
    rw [List.any_eq_false]
    intro p hp
    exact List.find?_eq_none.mp hf p hp

/-- A `mapGet` hit means some pair carries the key. -/
theorem mapGet_some_any (m : List (String × EntryData)) (k : String) (ex : EntryData)
    (h : mapGet m k = some ex) : m.any (fun p => p.1 = k) = true := by
  unfold mapGet at h
  cases hf : m.find? (fun p => p.1 = k) with
  | none => rw [hf] at h; exact Option.noConfusion h
  | some p =>
    rw [List.any_eq_true]
    exact ⟨p, List.mem_of_find?_eq_some hf, by
      have := List.find?_some hf
      simpa using this⟩

/-- A `mapGet` hit returns a stored value. -/
theorem mapGet_some_mem (m : List (String × EntryData)) (k : String) (ex : EntryData)
    (h : mapGet m k = some ex) : ∃ p ∈ m, p.2 = ex ∧ p.1 = k := by
  unfold mapGet at h
  cases hf : m.find? (fun p => p.1 = k) with
  | none => rw [hf] at h; exact Option.noConfusion h
  | some p =>
    rw [hf] at h
    refine ⟨p, List.mem_of_find?_eq_some hf, Option.some.inj h, ?_⟩
    have := List.find?_some hf
    simpa using this

/-- In-place `mapSet` on a present key preserves the key list (hence the
length). -/
theorem mapSet_keys_of_mem (m : List (String × EntryData)) (k : String) (v : EntryData)
    (h : m.any (fun p => p.1 = k) = true) :
    (mapSet m k v).map (fun p => p.1) = m.map (fun p => p.1)
      ∧ (mapSet m k v).length = m.length := by
  unfold mapSet
  rw [if_pos h]
  constructor
  · rw [List.map_map]
    apply List.map_congr_left
    intro p hp
    by_cases hpk : p.1 = k
    · simp [hpk]
    · simp [hpk]
  · rw [List.length_map]

/-- `mapSet` on an absent key appends. -/
theorem mapSet_of_not_mem (m : List (String × EntryData)) (k : String) (v : EntryData)
    (h : m.any (fun p => p.1 = k) = false) :
    mapSet m k v = m ++ [(k, v)] := by
  unfold mapSet
  rw [if_neg (by rw [h]; decide)]

/-- Members of an in-place `mapSet` are old pairs or the new binding. -/
theorem mapSet_mem (m : List (String × EntryData)) (k : String) (v : EntryData)
    (p : String × EntryData) (hp : p ∈ mapSet m k v) :
    p ∈ m ∨ p = (k, v) := by
  unfold mapSet at hp
  by_cases h : m.any (fun p => p.1 = k) = true
  · rw [if_pos h] at hp
    obtain ⟨q, hq, hquv⟩ := List.mem_map.mp hp
    by_cases hqk : q.1 = k
    · right; rw [← hquv]; simp [hqk]
    · left; rw [← hquv]; simpa [hqk] using hq
  · rw [if_neg h] at hp
    rcases List.mem_append.mp hp with hl | hr
    · exact Or.inl hl
    · exact Or.inr (by simpa using hr)

/-- Key-value coherence of the id-keyed map: every pair's key is its value's
id. -/
def mapCoherent (m : List (String × EntryData)) : Prop :=
  ∀ p ∈ m, p.1 = p.2.id

/-- The added branch of the merge loop. -/
theorem mergeStep_added (m : List (String × EntryData)) (c : MergeCounts)
    (ie : EntryData) (h : mapGet m ie.id = none) :
    mergeStep m c ie = (mapSet m ie.id ie, { c with added := c.added + 1 }) := by
  unfold mergeStep
  rw [h]

/-- The skipped branch of the merge loop. -/
theorem mergeStep_skipped (m : List (String × EntryData)) (c : MergeCounts)
    (ie ex : EntryData) (h : mapGet m ie.id = some ex)
    (hch : entryFieldsUnchanged ie ex = true) :
    mergeStep m c ie = (m, { c with skipped := c.skipped + 1 }) := by
  unfold mergeStep
  rw [h]
  simp only [hch, if_true]

/-- The updated branch of the merge loop. -/
theorem mergeStep_updated (m : List (String × EntryData)) (c : MergeCounts)
    (ie ex : EntryData) (h : mapGet m ie.id = some ex)
    (hch : entryFieldsUnchanged ie ex = false) :
    mergeStep m c ie =
      (mapSet m ie.id (if importedIsMoreRecent ie ex then ie else ex),
        { c with updated := c.updated + 1 }) := by
  unfold mergeStep
  rw [h]
  simp only [hch, Bool.false_eq_true, if_false]

/-- A merge in which every imported entry hits a field-identical local
record skips everything and leaves the map untouched. -/
theorem mergeFold_skipAll (imps : List EntryData) :
    ∀ (m : List (String × EntryData)) (c : MergeCounts),
      (∀ ie ∈ imps, ∃ ex, mapGet m ie.id = some ex
        ∧ entryFieldsUnchanged ie ex = true) →
      imps.foldl (fun st ie => mergeStep st.1 st.2 ie) (m, c)
        = (m, ⟨c.added, c.updated, c.skipped + imps.length⟩) := by
  induction imps with
  | nil => intro m c h; simp
  | cons ie rest ih =>
    intro m c h
    obtain ⟨ex, hget, hch⟩ := h ie (List.mem_cons_self ie rest)
    simp only [List.foldl_cons, mergeStep_skipped m c ie ex hget hch, List.length_cons]
    rw [ih m _ (fun x hx => h x (List.mem_cons_of_mem ie hx))]
    have : c.skipped + 1 + rest.length = c.skipped + (rest.length + 1) := by omega
    rw [this]

/-- One merge step: the counters advance by exactly one, the map grows by
one exactly on the added branch, and key uniqueness and coherence are
preserved. -/
theorem mergeStep_invariant (m : List (String × EntryData)) (c : MergeCounts)
    (ie : EntryData) (hnodup : (m.map (fun p => p.1)).Nodup)
    (hcoh : mapCoherent m) :
    (mergeStep m c ie).2.added + (mergeStep m c ie).2.updated
        + (mergeStep m c ie).2.skipped
        = c.added + c.updated + c.skipped + 1
      ∧ (mergeStep m c ie).1.length + c.added = m.length + (mergeStep m c ie).2.added
      ∧ ((mergeStep m c ie).1.map (fun p => p.1)).Nodup
      ∧ mapCoherent (mergeStep m c ie).1 := by
  cases hget : mapGet m ie.id with
  | none =>
    have hany := mapGet_none_any m ie.id hget
    rw [mergeStep_added m c ie hget, mapSet_of_not_mem m ie.id ie hany]
    have hkeys : ((m ++ [(ie.id, ie)]).map (fun p => p.1)).Nodup := by
      rw [List.map_append, List.nodup_append]
      refine ⟨hnodup, by simp, ?_⟩
      intro a ha hb
      have hid : a = ie.id := by simpa using hb
      subst hid
      obtain ⟨p, hp, hpk⟩ := List.mem_map.mp ha
      have := List.any_eq_false.mp hany p hp
      exact this (by simpa using hpk)
    refine ⟨?_, ?_, hkeys, ?_⟩
    · show c.added + 1 + c.updated + c.skipped = c.added + c.updated + c.skipped + 1
      omega
    · show (m ++ [(ie.id, ie)]).length + c.added = m.length + (c.added + 1)
      rw [List.length_append, List.length_singleton]
      omega
    intro p hp
    rcases List.mem_append.mp hp with hl | hr
    · exact hcoh p hl
    · have : p = (ie.id, ie) := by simpa using hr
      rw [this]
  | some ex =>
    by_cases hch : entryFieldsUnchanged ie ex = true
    · rw [mergeStep_skipped m c ie ex hget hch]
      refine ⟨?_, rfl, hnodup, hcoh⟩
      show c.added + c.updated + (c.skipped + 1) = c.added + c.updated + c.skipped + 1
      omega
    · rw [mergeStep_updated m c ie ex hget (by
        cases hb : entryFieldsUnchanged ie ex
        · rfl
        · exact absurd hb hch)]
      have hany := mapGet_some_any m ie.id ex hget
      obtain ⟨hkeys, hlen⟩ :=
        mapSet_keys_of_mem m ie.id (if importedIsMoreRecent ie ex then ie else ex) hany
      refine ⟨?_, ?_, by rw [hkeys]; exact hnodup, ?_⟩
      · show c.added + (c.updated + 1) + c.skipped = c.added + c.updated + c.skipped + 1
        omega
      · show (mapSet m ie.id (if importedIsMoreRecent ie ex = true then ie else ex)).length
            + c.added = m.length + c.added
        rw [hlen]
      intro p hp
      rcases mapSet_mem _ _ _ p hp with hl | hr
      · exact hcoh p hl
      · rw [hr]
        by_cases hrec : importedIsMoreRecent ie ex = true
        · simp [hrec]
        · have hex : ex.id = ie.id := by
            obtain ⟨q, hq, hqv, hqk⟩ := mapGet_some_mem m ie.id ex hget
            rw [← hqv, ← hqk]
            exact (hcoh q hq).symm
          simp [hrec, hex]

/-- The merge fold preserves the step invariant along the imported list. -/
theorem mergeFold_invariant (imps : List EntryData) :
    ∀ (m : List (String × EntryData)) (c : MergeCounts),
      (m.map (fun p => p.1)).Nodup → mapCoherent m →
      (imps.foldl (fun st ie => mergeStep st.1 st.2 ie) (m, c)).2.added
            + (imps.foldl (fun st ie => mergeStep st.1 st.2 ie) (m, c)).2.updated
            + (imps.foldl (fun st ie => mergeStep st.1 st.2 ie) (m, c)).2.skipped
          = c.added + c.updated + c.skipped + imps.length
        ∧ (imps.foldl (fun st ie => mergeStep st.1 st.2 ie) (m, c)).1.length + c.added
          = m.length + (imps.foldl (fun st ie => mergeStep st.1 st.2 ie) (m, c)).2.added
        ∧ ((imps.foldl (fun st ie => mergeStep st.1 st.2 ie) (m, c)).1.map
            (fun p => p.1)).Nodup
        ∧ mapCoherent (imps.foldl (fun st ie => mergeStep st.1 st.2 ie) (m, c)).1 := by
  induction imps with
  | nil => intro m c h hc; exact ⟨by simp, by simp, h, hc⟩
  | cons ie rest ih =>
    intro m c h hc
    obtain ⟨hcount, hlen, hnd, hco⟩ := mergeStep_invariant m c ie h hc
    rcases hstep : mergeStep m c ie with ⟨m1, c1⟩
    rw [hstep] at hcount hlen hnd hco
    simp only [List.foldl_cons, hstep, List.length_cons]
    obtain ⟨ihc, ihl, ihn, ihco⟩ := ih m1 c1 hnd hco
    simp only at hcount hlen
    refine ⟨by omega, by omega, ihn, ihco⟩

/-- With unique local ids the initial map lists the store in order. -/
theorem buildEntriesMap_eq (store : List EntryData)
    (h : (store.map (fun e => e.id)).Nodup) :
    buildEntriesMap store = store.map (fun e => (e.id, e)) := by
  unfold buildEntriesMap
  suffices haux : ∀ (l : List EntryData) (acc : List (String × EntryData)),
      (∀ e ∈ l, acc.any (fun p => p.1 = e.id) = false) →
      (l.map (fun e => e.id)).Nodup →
      l.foldl (fun m e => mapSet m e.id e) acc = acc ++ l.map (fun e => (e.id, e)) by
    have := haux store [] (fun e _ => rfl) h
    simpa using this
  intro l
  induction l with
  | nil => intro acc _ _; simp
  | cons e rest ih =>
    intro acc hacc hnd
    simp only [List.foldl_cons]
    rw [mapSet_of_not_mem acc e.id e (hacc e (List.mem_cons_self e rest))]
    rw [List.map_cons, List.nodup_cons] at hnd
    rw [ih (acc ++ [(e.id, e)]) ?_ hnd.2]
    · simp
    · intro e' he'
      rw [List.any_append]
      have h1 := hacc e' (List.mem_cons_of_mem e he')
      have h2 : ¬ e'.id = e.id := by
        intro hcontra
        exact hnd.1 (by rw [← hcontra]; exact List.mem_map_of_mem (fun x => x.id) he')
      rw [h1]
      simp [h2]
      intro hcontra
      exact absurd hcontra.symm h2

/-! ### Claim theorems -/

/-- Claim C1: for every raw input, `normalizeStoredEntry` returns null
exactly when the input is not object-shaped, and otherwise returns an entry
satisfying the data-model invariants: the amount is an integer equal to the
amount normalization (a finite number truncated toward zero, anything else
parsed base-10 from its string form with default 0), the date is a valid
ISO-8601 UTC instant (a `toISOString` image), and the type is one of the
enum values `EXPENSE`/`INCOME`. -/
theorem C1_normalize_invariants (g : Gen) (now : Int) (v : JSValue) :
    ((normalizeStoredEntry g now v).1 = none ↔ isObjectShaped v = false)
      ∧ (∀ e sync, (normalizeStoredEntry g now v).1 = some (e, sync) →
          e.amount = normalizeAmount (getField v "amount")
            ∧ (∀ q : ℚ, getField v "amount" = .num (.finite q) → e.amount = ratTrunc q)
            ∧ ((∀ q : ℚ, getField v "amount" ≠ .num (.finite q)) →
                e.amount = (jsParseInt (jsToString (nullishDefault (getField v "amount")
                  (.str "0")))).getD 0)
            ∧ (∃ t : Int, e.date = toISOString t)
            ∧ (e.type = .EXPENSE ∨ e.type = .INCOME)) := by
  by_cases hobj : isObjectShaped v = true
  · obtain ⟨e0, s0, heq, ham, hdate, htype⟩ :=
      normalizeStoredEntry_objectShaped g now v hobj
    constructor
    · rw [heq]
      constructor
      · intro h; exact Option.noConfusion h
      · intro hf; rw [hobj] at hf; exact absurd hf (by decide)
    · intro e sync hsome
      rw [heq] at hsome
      have h1 := Option.some.inj hsome
      have he : e0 = e := congrArg Prod.fst h1
      subst he
      refine ⟨ham, ?_, ?_, ?_, ?_⟩
      · intro q hq; rw [ham, hq, normalizeAmount_finite]
      · intro hnf; rw [ham]; exact normalizeAmount_notFinite _ hnf
      · rw [hdate]; exact normalizeDate_isISO now _
      · rw [htype]; exact normalizeType_enum _
  · have hobj' : isObjectShaped v = false := by
      cases hfb : isObjectShaped v
      · rfl
      · exact absurd hfb hobj
    have hcond : ¬ isObjectShaped v = true := by rw [hobj']; exact Bool.false_ne_true
    have hnone : (normalizeStoredEntry g now v).1 = none := by
      unfold normalizeStoredEntry
      rw [if_pos hcond]
    constructor
    · exact ⟨fun _ => hobj', fun _ => hnone⟩
    · intro e sync hsome
      rw [hnone] at hsome
      exact Option.noConfusion hsome

/-- Claim C5: `updateEntry` is a no-op — the stored entry collection is left
completely unchanged, so no `updatedAt` timestamp is bumped — whenever the
target id is absent from the store, or the normalization of the current
entry merged with the updates is field-for-field identical (amount, date,
description, type, recurrence) to the current record. -/
theorem C5_update_noop (g : Gen) (now : Int) (store : List EntryData)
    (entryId : String) (u : EntryUpdates) :
    (store.find? (fun e => e.id = entryId) = none →
        (updateEntry g now store entryId u).1 = store)
      ∧ (∀ cur, store.find? (fun e => e.id = entryId) = some cur →
          ∀ ne sync,
            (normalizeStoredEntry g now (updateCandidate cur u)).1 = some (ne, sync) →
            entryFieldsUnchanged ne cur = true →
            (updateEntry g now store entryId u).1 = store) := by
  constructor
  · intro hf
    unfold updateEntry
    rw [hf]
  · intro cur hf ne sync hn hu
    unfold updateEntry
    rw [hf]
    rcases hnorm : normalizeStoredEntry g now (updateCandidate cur u) with ⟨o, g2⟩
    rw [hnorm] at hn
    simp only at hn
    subst hn
    simp only [hnorm, hu, if_true]

/-- The empty update payload. -/
def noUpdates : EntryUpdates := ⟨none, none, none, none, none⟩

/-- Witness for C5: updating an absent id, and updating an entry with an
empty payload (normalizing to a field-for-field identical record), both
leave the store untouched. -/
theorem C5_update_noop_witness :
    (updateEntry (mkGen "w5-") 0 [mayIncomeEntry] "absent" noUpdates).1 = [mayIncomeEntry]
      ∧ (updateEntry (mkGen "w5-") 0 [mayIncomeEntry] "m1" noUpdates).1 = [mayIncomeEntry] := by
  constructor
  · exact (C5_update_noop (mkGen "w5-") 0 [mayIncomeEntry] "absent" noUpdates).1 (by decide)
  · exact (C5_update_noop (mkGen "w5-") 0 [mayIncomeEntry] "m1" noUpdates).2
      mayIncomeEntry (by decide) mayIncomeEntry false (by decide) (by decide)

/-- The raw element list an import payload exposes, before the
every-element-is-an-object validation: the payload itself when it is an
array, else its `entries` (or legacy `expenses`) array. -/
def payloadEntryList (raw : JSValue) : Option (List JSValue) :=
  match raw with
  | .arr xs => some xs
  | .obj _ =>
    match nullishDefault (getField raw "entries") (getField raw "expenses") with
    | .arr xs => some xs
    | _ => none
  | _ => none

/-- Claim C9: `importEntries` throws an ImportError for every payload that is
not an array nor an object exposing an `entries`/`expenses` array, and for
every payload some element of which fails normalization (an element fails
normalization exactly when it is not object-shaped); whenever it throws,
the whole payload is rejected all-or-nothing and the local entry collection
is left exactly as it was. -/
theorem C9_import_allOrNothing (g : Gen) (now : Int) (store : List EntryData)
    (raw : JSValue) :
    (payloadEntryList raw = none →
        ∃ msg, (extractAndNormalizeImportedEntries g now raw).1 = .error msg)
      ∧ (∀ xs, payloadEntryList raw = some xs →
          (∃ v ∈ xs, ∃ g2 : Gen, (normalizeStoredEntry g2 now v).1 = none) →
          ∃ msg, (extractAndNormalizeImportedEntries g now raw).1 = .error msg)
      ∧ (∀ msg, (extractAndNormalizeImportedEntries g now raw).1 = .error msg →
          importEntriesInto g now store raw = store) := by
  refine ⟨?_, ?_, ?_⟩
  · intro hnone
    cases raw with
    | obj fields =>
      unfold payloadEntryList at hnone
      unfold extractAndNormalizeImportedEntries extractImportedEntries
      cases hc : nullishDefault (getField (.obj fields) "entries")
          (getField (.obj fields) "expenses") with
      | arr xs => rw [hc] at hnone; exact Option.noConfusion hnone
      | undefined => exact ⟨_, rfl⟩
      | null => exact ⟨_, rfl⟩
      | bool b => exact ⟨_, rfl⟩
      | num n => exact ⟨_, rfl⟩
      | str s => exact ⟨_, rfl⟩
      | obj fs => exact ⟨_, rfl⟩
    | arr xs => exact Option.noConfusion hnone
    | undefined => exact ⟨_, rfl⟩
    | null => exact ⟨_, rfl⟩
    | bool b => exact ⟨_, rfl⟩
    | num n => exact ⟨_, rfl⟩
    | str s => exact ⟨_, rfl⟩
  · intro xs hxs hbad
    obtain ⟨v, hv, g2, hnorm⟩ := hbad
    have hvshape : isObjectShaped v = false :=
      (normalizeStoredEntry_none_iff g2 now v).1 hnorm
    have hall : xs.all isObjectShaped = false := by
      rw [List.all_eq_false]
      exact ⟨v, hv, by rw [hvshape]; decide⟩
    cases raw with
    | arr ys =>
      have hys : ys = xs := Option.some.inj hxs
      subst hys
      unfold extractAndNormalizeImportedEntries extractImportedEntries
      simp only [hall]
      exact ⟨_, rfl⟩
    | obj fields =>
      unfold payloadEntryList at hxs
      unfold extractAndNormalizeImportedEntries extractImportedEntries
      cases hc : nullishDefault (getField (.obj fields) "entries")
          (getField (.obj fields) "expenses") with
      | arr ys =>
        rw [hc] at hxs
        have hys : ys = xs := Option.some.inj hxs
        subst hys
        simp only [hall]
        exact ⟨_, rfl⟩
      | undefined => exact ⟨_, rfl⟩
      | null => exact ⟨_, rfl⟩
      | bool b => exact ⟨_, rfl⟩
      | num n => exact ⟨_, rfl⟩
      | str s => exact ⟨_, rfl⟩
      | obj fs => exact ⟨_, rfl⟩
    | undefined => exact Option.noConfusion hxs
    | null => exact Option.noConfusion hxs
    | bool b => exact Option.noConfusion hxs
    | num n => exact Option.noConfusion hxs
    | str s => exact Option.noConfusion hxs
  · intro msg herr
    unfold importEntriesInto
    rw [herr]

/-- Witness for C9: a non-object payload and a payload with a non-object
element both throw, leaving the store untouched. -/
theorem C9_import_allOrNothing_witness :
    importEntriesInto (mkGen "w9-") 0 [mayIncomeEntry] (.str "nope") = [mayIncomeEntry]
      ∧ importEntriesInto (mkGen "w9-") 0 [mayIncomeEntry]
          (.obj [("expenses", .arr [.num (.finite 1)])]) = [mayIncomeEntry] := by
  constructor
  · obtain ⟨ha, hb, hc⟩ :=
      C9_import_allOrNothing (mkGen "w9-") 0 [mayIncomeEntry] (.str "nope")
    obtain ⟨msg, herr⟩ := ha rfl
    exact hc msg herr
  · obtain ⟨ha, hb, hc⟩ :=
      C9_import_allOrNothing (mkGen "w9-") 0 [mayIncomeEntry]
        (.obj [("expenses", .arr [.num (.finite 1)])])
    obtain ⟨msg, herr⟩ := hb [.num (.finite 1)] rfl
      ⟨.num (.finite 1), List.mem_singleton_self _, mkGen "w9-", by decide⟩
    exact hc msg herr

/-- Claim C6: merging a set with itself is deterministic and detects no
change — for every canonical entry set of size n (with the data-model's
unique-id invariant), merging the serialization of the current store into
the store itself returns added 0, updated 0, skipped n, and leaves the
entry collection unchanged. -/
theorem C6_merge_self (g : Gen) (now : Int) (entries : List EntryData)
    (hcanon : ∀ e ∈ entries, canonicalEntry e = true)
    (hids : (entries.map (fun e => e.id)).Nodup) :
    (compareAndMergeEntries g now (serializeEntriesParsed entries) entries).1 =
      .ok (⟨0, 0, entries.length⟩, entries) := by
  have hall : (entries.map entryToRaw).all isObjectShaped = true := by
    rw [List.all_eq_true]
    intro v hv
    obtain ⟨e, he, rfl⟩ := List.mem_map.mp hv
    exact entryToRaw_objectShaped e
  have hextract : extractImportedEntries (serializeEntriesParsed entries)
      = .ok (entries.map entryToRaw) := by
    unfold serializeEntriesParsed extractImportedEntries
    show (if (entries.map entryToRaw).all isObjectShaped = true then
        Except.ok (entries.map entryToRaw)
      else Except.error "Invalid entry detected during import.")
      = .ok (entries.map entryToRaw)
    rw [if_pos hall]
  have hexnorm : extractAndNormalizeImportedEntries g now
      (serializeEntriesParsed entries)
      = (.ok (entries.map
          (fun e => { e with updatedAt := normalizedUpdatedAt now e })), g) := by
    unfold extractAndNormalizeImportedEntries
    rw [hextract]
    exact normalizeImportedList_canonical now entries hcanon g
  have hmap := buildEntriesMap_eq entries hids
  have hcond : ∀ ie ∈ entries.map
      (fun e => { e with updatedAt := normalizedUpdatedAt now e }),
      ∃ ex, mapGet (buildEntriesMap entries) ie.id = some ex
        ∧ entryFieldsUnchanged ie ex = true := by
    intro ie hie
    obtain ⟨e, he, rfl⟩ := List.mem_map.mp hie
    refine ⟨e, ?_, fieldsUnchanged_updatedAt e _⟩
    rw [hmap]
    exact mapGet_entries entries hids e he
  have hfold := mergeFold_skipAll
    (entries.map (fun e => { e with updatedAt := normalizedUpdatedAt now e }))
    (buildEntriesMap entries) ⟨0, 0, 0⟩ hcond
  unfold compareAndMergeEntries
  rw [hexnorm]
  show (Except.ok
      (((entries.map (fun e => { e with updatedAt := normalizedUpdatedAt now e })).foldl
          (fun st ie => mergeStep st.1 st.2 ie) (buildEntriesMap entries, ⟨0, 0, 0⟩)).2,
        ((entries.map (fun e => { e with updatedAt := normalizedUpdatedAt now e })).foldl
          (fun st ie => mergeStep st.1 st.2 ie) (buildEntriesMap entries, ⟨0, 0, 0⟩)).1.map
          (fun p => p.2))
      : Except String (MergeCounts × List EntryData))
    = .ok (⟨0, 0, entries.length⟩, entries)
  rw [hfold]
  show (Except.ok
      ((⟨0, 0, 0 + (entries.map
          (fun e => { e with updatedAt := normalizedUpdatedAt now e })).length⟩ : MergeCounts),
        (buildEntriesMap entries).map (fun p => p.2))
      : Except String (MergeCounts × List EntryData))
    = .ok (⟨0, 0, entries.length⟩, entries)
  rw [hmap, List.map_map, List.length_map, Nat.zero_add]
  refine congrArg (fun l : List EntryData =>
    (Except.ok ((⟨0, 0, entries.length⟩ : MergeCounts), l)
      : Except String (MergeCounts × List EntryData))) ?_
  show List.map (fun (e : EntryData) => e) entries = entries
  exact List.map_id' entries

/-- Witness for C6 at the Scenario A store (4 canonical entries with
distinct ids): self-merge reports 0 added, 0 updated, 4 skipped and keeps
the collection. -/
theorem C6_merge_self_witness :
    ((∀ e ∈ scenarioAResult, canonicalEntry e = true)
      ∧ (scenarioAResult.map (fun e => e.id)).Nodup)
    ∧ (compareAndMergeEntries (mkGen "w6-") scenarioANow
        (serializeEntriesParsed scenarioAResult) scenarioAResult).1 =
      .ok (⟨0, 0, scenarioAResult.length⟩, scenarioAResult) :=
  ⟨⟨by decide, by decide⟩,
    C6_merge_self (mkGen "w6-") scenarioANow scenarioAResult
      (by decide) (by decide)⟩

/-- Claim C7: when an imported entry's id exists locally and the records
differ in a compared field, the merge keeps whichever record has the newer
`updatedAt` (absent treated as older than any present one) and counts it as
updated regardless of which side wins; in particular (Scenario D), with the
local `updatedAt` absent and the imported one present, the imported record
replaces the local one and the updated count is 1. -/
theorem C7_merge_keeps_newer (m : List (String × EntryData)) (c : MergeCounts)
    (ie ex : EntryData)
    (hget : mapGet m ie.id = some ex)
    (hdiff : entryFieldsUnchanged ie ex = false)
    (hie : wellFormedUpdatedAt ie = true) (hex : wellFormedUpdatedAt ex = true) :
    mergeStep m c ie =
        (mapSet m ie.id (if claimNewer ie ex then ie else ex),
          { c with updated := c.updated + 1 })
      ∧ (compareAndMergeEntries (mkGen "w7-") 0
            (serializeEntriesParsed [conflictImportedEntry]) [conflictLocalEntry]).1 =
          .ok (⟨0, 1, 0⟩, [conflictImportedEntry]) := by
  constructor
  · unfold mergeStep
    rw [hget]
    simp only [hdiff, importedIsMoreRecent_eq_claimNewer ie ex hie hex,
      Bool.false_eq_true, if_false]
  · decide

/-- Witness for C7 at the Scenario D records: the imported side wins and the
update counter advances. -/
theorem C7_merge_keeps_newer_witness :
    mergeStep [("x", conflictLocalEntry)] ⟨0, 0, 0⟩ conflictImportedEntry =
      ([("x", conflictImportedEntry)], ⟨0, 1, 0⟩) := by
  have h := (C7_merge_keeps_newer [("x", conflictLocalEntry)] ⟨0, 0, 0⟩
    conflictImportedEntry conflictLocalEntry (by decide) (by decide)
    (by decide) (by decide)).1
  exact h.trans (by decide)

/-- Claim C10: merge counts are conserved — for every successful merge of
an imported entry set of size n into a local set of size m (with the
data-model's unique-id invariant), added + updated + skipped = n, and the
resulting store contains exactly m + added entries, one per distinct id
(before the subsequent recurrence expansion, which persists on a later
microtask). -/
theorem C10_merge_conservation (g : Gen) (now : Int) (parsed : JSValue)
    (store : List EntryData) (hids : (store.map (fun e => e.id)).Nodup)
    (imported : List EntryData)
    (hok : (extractAndNormalizeImportedEntries g now parsed).1 = .ok imported)
    (counts : MergeCounts) (merged : List EntryData)
    (hres : (compareAndMergeEntries g now parsed store).1 = .ok (counts, merged)) :
    counts.added + counts.updated + counts.skipped = imported.length
      ∧ merged.length = store.length + counts.added
      ∧ (merged.map (fun e => e.id)).Nodup := by
  rcases hx : extractAndNormalizeImportedEntries g now parsed with ⟨res, gx⟩
  rw [hx] at hok
  simp only at hok
  subst hok
  have hcm : (compareAndMergeEntries g now parsed store).1 =
      .ok ((imported.foldl (fun st ie => mergeStep st.1 st.2 ie)
            (buildEntriesMap store, ⟨0, 0, 0⟩)).2,
          (imported.foldl (fun st ie => mergeStep st.1 st.2 ie)
            (buildEntriesMap store, ⟨0, 0, 0⟩)).1.map (fun p => p.2)) := by
    unfold compareAndMergeEntries
    rw [hx]
  rw [hcm] at hres
  have hinj := Except.ok.inj hres
  have hc : counts = (imported.foldl (fun st ie => mergeStep st.1 st.2 ie)
      (buildEntriesMap store, ⟨0, 0, 0⟩)).2 := (congrArg Prod.fst hinj).symm
  have hm : merged = (imported.foldl (fun st ie => mergeStep st.1 st.2 ie)
      (buildEntriesMap store, ⟨0, 0, 0⟩)).1.map (fun p => p.2) :=
    (congrArg Prod.snd hinj).symm
  have hmap := buildEntriesMap_eq store hids
  have hkeys : ((buildEntriesMap store).map (fun p => p.1)).Nodup := by
    rw [hmap, List.map_map]
    simpa using hids
  have hcoh : mapCoherent (buildEntriesMap store) := by
    rw [hmap]
    intro p hp
    obtain ⟨e, he, rfl⟩ := List.mem_map.mp hp
    rfl
  have hblen : (buildEntriesMap store).length = store.length := by
    rw [hmap, List.length_map]
  obtain ⟨hcount, hlen, hnd, hco⟩ :=
    mergeFold_invariant imported (buildEntriesMap store) ⟨0, 0, 0⟩ hkeys hcoh
  refine ⟨?_, ?_, ?_⟩
  · rw [hc]
    simpa using hcount
  · rw [hm, hc, List.length_map]
    simp only at hlen
    omega
  · rw [hm, List.map_map]
    have : ((imported.foldl (fun st ie => mergeStep st.1 st.2 ie)
        (buildEntriesMap store, ⟨0, 0, 0⟩)).1.map
          ((fun e => e.id) ∘ (fun p => p.2)))
        = (imported.foldl (fun st ie => mergeStep st.1 st.2 ie)
          (buildEntriesMap store, ⟨0, 0, 0⟩)).1.map (fun p => p.1) := by
      apply List.map_congr_left
      intro p hp
      exact (hco p hp).symm
    rw [this]
    exact hnd

/-- Witness for C10: merging two imported entries (one conflicting id, one
new) into a one-entry store yields counters (1 added, 1 updated, 0 skipped)
summing to 2, a store of 1 + 1 entries, and distinct ids. -/
theorem C10_merge_conservation_witness :
    ∃ counts : MergeCounts, ∃ merged : List EntryData,
      (compareAndMergeEntries (mkGen "wa-") 0
          (serializeEntriesParsed [conflictImportedEntry, mayIncomeEntry])
          [conflictLocalEntry]).1 = .ok (counts, merged)
        ∧ counts.added + counts.updated + counts.skipped = 2
        ∧ merged.length = 1 + counts.added
        ∧ (merged.map (fun e => e.id)).Nodup := by
  obtain ⟨h1, h2, h3⟩ := C10_merge_conservation (mkGen "wa-") 0
    (serializeEntriesParsed [conflictImportedEntry, mayIncomeEntry])
    [conflictLocalEntry] (by decide)
    [conflictImportedEntry, mayIncomeEntry] (by decide)
    ⟨1, 1, 0⟩ [conflictImportedEntry, mayIncomeEntry] (by decide)
  exact ⟨⟨1, 1, 0⟩, [conflictImportedEntry, mayIncomeEntry], by decide,
    h1.trans (by decide), by rw [h2]; decide, h3⟩

/-- A raw stored record needing several repairs: string amount, unparseable
date, lower-case type, missing id. -/
def sampleRawEntry : JSValue :=
  .obj [("amount", .str "1500.7"), ("date", .str "not-a-date"), ("type", .str "income")]

/-- The canonical entry `normalizeStoredEntry` produces for
`sampleRawEntry` with id supply `mkGen "w-"` and `now = 0`. -/
def sampleNormalizedEntry : EntryData :=
  { id := "w-0", amount := 1500, date := "1970-01-01T00:00:00.000Z",
    description := none, type := .INCOME, updatedAt := none, recurrence := none }

/-- Witness for C1 at a concrete repaired input. -/
theorem C1_normalize_invariants_witness :
    (normalizeStoredEntry (mkGen "w-") 0 sampleRawEntry).1 =
        some (sampleNormalizedEntry, true)
      ∧ (∃ t : Int, sampleNormalizedEntry.date = toISOString t)
      ∧ (sampleNormalizedEntry.type = .EXPENSE ∨ sampleNormalizedEntry.type = .INCOME)
      ∧ sampleNormalizedEntry.amount = 1500 := by
  have heq : (normalizeStoredEntry (mkGen "w-") 0 sampleRawEntry).1 =
      some (sampleNormalizedEntry, true) := by decide
  obtain ⟨ham, hfin, hnf, hdate, htype⟩ :=
    (C1_normalize_invariants (mkGen "w-") 0 sampleRawEntry).2 _ _ heq
  exact ⟨heq, hdate, htype, by rw [ham]; decide⟩

/-- Claim C3: for a monthly series with indefinite termination anchored at
2024-01-15 whose only materialized entry is the anchor (occurrence index 0,
empty exclusion set), expanding up to target date 2024-04-20 yields exactly
the occurrence indices 0, 1, 2 and 3, dated 2024-01-15, 2024-02-15,
2024-03-15 and 2024-04-15, the anchor's time of day (12:00 UTC) preserved. -/
theorem C3_scenarioA_expansion :
    scenarioAResult.map
        (fun e => ((monthlyRec e).map (fun r => r.occurrenceIndex), e.date)) =
      [(some 0, "2024-01-15T12:00:00.000Z"), (some 1, "2024-02-15T12:00:00.000Z"),
       (some 2, "2024-03-15T12:00:00.000Z"), (some 3, "2024-04-15T12:00:00.000Z")] := by
  decide

/-! ### Series-metadata consistency and idempotence of the expansion (C2) -/

/-- Two recurrence records agree on the expansion-relevant metadata: anchor
date, termination and exclusion list. -/
def sameSeriesMeta (r s : Recurrence) : Bool :=
  decide (r.anchorDate = s.anchorDate) && decide (r.termination = s.termination)
    && decide (r.excludedOccurrences = s.excludedOccurrences)

/-- A store is series-consistent when any two monthly entries of one series
agree on the expansion-relevant metadata.  Per-entry normalization enforces
no such cross-entry invariant — the C2 counterexample exploits that — but
every mutation of the service itself preserves it. -/
def consistentStore (store : List EntryData) : Bool :=
  (recPairs store).all (fun p =>
    (recPairs store).all (fun q =>
      if p.2.recurrenceId = q.2.recurrenceId then sameSeriesMeta p.2 q.2 else true))

/-- The propositional reading of `consistentStore`, over any pair list. -/
def pairwiseMeta (ps : List (EntryData × Recurrence)) : Prop :=
  ∀ p ∈ ps, ∀ q ∈ ps, p.2.recurrenceId = q.2.recurrenceId →
    sameSeriesMeta p.2 q.2 = true

theorem sameSeriesMeta_iff {r s : Recurrence} :
    sameSeriesMeta r s = true ↔
      r.anchorDate = s.anchorDate ∧ r.termination = s.termination
        ∧ r.excludedOccurrences = s.excludedOccurrences := by
  simp [sameSeriesMeta, and_assoc]

theorem sameSeriesMeta_refl (r : Recurrence) : sameSeriesMeta r r = true := by
  simp [sameSeriesMeta]

theorem consistentStore_spec (store : List EntryData)
    (h : consistentStore store = true) : pairwiseMeta (recPairs store) := by
  intro p hp q hq hrid
  unfold consistentStore at h
  rw [List.all_eq_true] at h
  have hp' := h p hp
  rw [List.all_eq_true] at hp'
  have hq' := hp' q hq
  rw [if_pos hrid] at hq'
  exact hq'

theorem monthlyRec_freq (e : EntryData) (r : Recurrence)
    (h : monthlyRec e = some r) : r.frequency = "monthly" := by
  unfold monthlyRec at h
  cases hrc : e.recurrence with
  | none =>
    simp only [hrc] at h
    exact Option.noConfusion h
  | some r' =>
    simp only [hrc] at h
    by_cases hf : r'.frequency = "monthly"
    · rw [if_pos hf] at h
      cases h
      exact hf
    · rw [if_neg hf] at h
      exact Option.noConfusion h

theorem mem_recPairs {l : List EntryData} {p : EntryData × Recurrence}
    (hp : p ∈ recPairs l) : p.1 ∈ l ∧ monthlyRec p.1 = some p.2 := by
  unfold recPairs at hp
  obtain ⟨e, he, hmap⟩ := List.mem_filterMap.mp hp
  cases hm : monthlyRec e with
  | none =>
    rw [hm] at hmap
    exact Option.noConfusion hmap
  | some r =>
    rw [hm] at hmap
    cases hmap
    exact ⟨he, hm⟩

theorem mem_recPairs_of {l : List EntryData} {e : EntryData} {r : Recurrence}
    (he : e ∈ l) (hm : monthlyRec e = some r) : (e, r) ∈ recPairs l := by
  unfold recPairs
  exact List.mem_filterMap.mpr ⟨e, he, by rw [hm]; rfl⟩

theorem recPairs_append (l l' : List EntryData) :
    recPairs (l ++ l') = recPairs l ++ recPairs l' := by
  unfold recPairs
  exact List.filterMap_append l l' _

theorem recPairs_perm {l l' : List EntryData} (h : List.Perm l l') :
    List.Perm (recPairs l) (recPairs l') := h.filterMap _

theorem sortEntriesByDate_perm (l : List EntryData) :
    List.Perm (sortEntriesByDate l) l :=
  List.perm_insertionSort _ l

theorem mem_groupOf {ps : List (EntryData × Recurrence)} {rid : String}
    {p : EntryData × Recurrence} :
    p ∈ groupOf ps rid ↔ p ∈ ps ∧ p.2.recurrenceId = rid := by
  unfold groupOf
  rw [List.mem_filter]
  simp

theorem groupOf_append (ps qs : List (EntryData × Recurrence)) (rid : String) :
    groupOf (ps ++ qs) rid = groupOf ps rid ++ groupOf qs rid := by
  unfold groupOf
  exact List.filter_append ps qs

theorem groupOf_perm {ps qs : List (EntryData × Recurrence)}
    (h : List.Perm ps qs) (rid : String) :
    List.Perm (groupOf ps rid) (groupOf qs rid) := h.filter _

theorem templateOf_mem {grp : List (EntryData × Recurrence)}
    {t : EntryData × Recurrence} (h : templateOf grp = some t) : t ∈ grp := by
  unfold templateOf at h
  cases hg : (grp.filter (fun p => p.2.occurrenceIndex = 0)).getLast? with
  | some u =>
    simp only [hg] at h
    cases h
    exact List.mem_of_mem_filter (List.mem_of_getLast?_eq_some hg)
  | none =>
    simp only [hg] at h
    obtain ⟨ys, hys⟩ := List.head?_eq_some_iff.mp h
    rw [hys]
    exact List.mem_cons_self _ _

theorem templateOf_of_ne_nil {grp : List (EntryData × Recurrence)}
    (h : grp ≠ []) : ∃ t, templateOf grp = some t := by
  unfold templateOf
  cases hg : (grp.filter (fun p => p.2.occurrenceIndex = 0)).getLast? with
  | some t => exact ⟨t, rfl⟩
  | none =>
    cases grp with
    | nil => exact absurd rfl h
    | cons x xs => exact ⟨x, rfl⟩

theorem resolveMax_nonneg {r : Recurrence} {target m : Int}
    (h : resolveMaxOccurrenceIndex r target = some m) : 0 ≤ m := by
  unfold resolveMaxOccurrenceIndex at h
  cases hp : parseDate r.anchorDate with
  | none =>
    simp only [hp] at h
    exact Option.noConfusion h
  | some anchor =>
    simp only [hp] at h
    split at h
    · exact Option.noConfusion h
    · split at h
      · exact Option.noConfusion h
      · split at h
        · cases h
          omega
        · split at h
          · exact Option.noConfusion h
          · cases h
            omega

theorem resolveMax_anchor {r : Recurrence} {target m : Int}
    (h : resolveMaxOccurrenceIndex r target = some m) :
    ∃ a, parseDate r.anchorDate = some a := by
  unfold resolveMaxOccurrenceIndex at h
  cases hp : parseDate r.anchorDate with
  | none =>
    simp only [hp] at h
    exact Option.noConfusion h
  | some a => exact ⟨a, rfl⟩

theorem resolveMax_meta {r s : Recurrence} (h : sameSeriesMeta r s = true)
    (target : Int) :
    resolveMaxOccurrenceIndex r target = resolveMaxOccurrenceIndex s target := by
  obtain ⟨ha, ht, _⟩ := sameSeriesMeta_iff.mp h
  unfold resolveMaxOccurrenceIndex
  rw [ha, ht]

/-- The resolved maximal index grows with the target date: a target that is
no later and whose month distance from the anchor is no larger resolves to
an index bound that is at most the original one. -/
theorem resolveMax_mono {r : Recurrence} {t₂ t₁ m₂ a : Int}
    (hp : parseDate r.anchorDate = some a)
    (hle : t₂ ≤ t₁)
    (hd : calculateMonthDistance a t₂ ≤ calculateMonthDistance a t₁)
    (h2 : resolveMaxOccurrenceIndex r t₂ = some m₂) :
    ∃ m₁, resolveMaxOccurrenceIndex r t₁ = some m₁ ∧ m₂ ≤ m₁ := by
  unfold resolveMaxOccurrenceIndex at h2 ⊢
  simp only [hp] at h2 ⊢
  by_cases hta : t₂ < a
  · rw [if_pos hta] at h2
    exact Option.noConfusion h2
  · rw [if_neg hta] at h2
    have hta1 : ¬(t₁ < a) := by omega
    rw [if_neg hta1]
    by_cases hmd : calculateMonthDistance a t₂ < 0
    · rw [if_pos hmd] at h2
      exact Option.noConfusion h2
    · rw [if_neg hmd] at h2
      have hmd1 : ¬(calculateMonthDistance a t₁ < 0) := by omega
      rw [if_neg hmd1]
      cases hterm : r.termination with
      | indefinite =>
        simp only [hterm] at h2 ⊢
        cases h2
        exact ⟨calculateMonthDistance a t₁, rfl, hd⟩
      | occurrences total =>
        simp only [hterm] at h2 ⊢
        by_cases htot : total - 1 < 0
        · rw [if_pos htot] at h2
          exact Option.noConfusion h2
        · rw [if_neg htot] at h2
          rw [if_neg htot]
          cases h2
          exact ⟨min (calculateMonthDistance a t₁) (total - 1), rfl, by omega⟩

theorem mem_jsSetDedup {α : Type} [DecidableEq α] {x : α} {xs : List α}
    (hx : x ∈ xs) : x ∈ jsSetDedup xs := by
  suffices haux : ∀ (l seen : List α), x ∈ l → x ∉ seen → x ∈ jsSetDedupAux seen l by
    exact haux xs [] hx (List.not_mem_nil x)
  intro l
  induction l with
  | nil => intro seen h _; cases h
  | cons y rest ih =>
    intro seen hmem hns
    unfold jsSetDedupAux
    by_cases hy : y ∈ seen
    · rw [if_pos hy]
      rcases List.mem_cons.mp hmem with rfl | hr
      · exact absurd hy hns
      · exact ih seen hr hns
    · rw [if_neg hy]
      rcases List.mem_cons.mp hmem with rfl | hr
      · exact List.mem_cons_self _ _
      · by_cases hxy : x = y
        · subst hxy
          exact List.mem_cons_self _ _
        · refine List.mem_cons_of_mem _ (ih (y :: seen) hr ?_)
          intro hcon
          rcases List.mem_cons.mp hcon with h1 | h1
          · exact hxy h1
          · exact hns h1

theorem mkOccList_meta (now : Int) (tE : EntryData) (tR : Recurrence)
    (anchor : Int) (hfreq : tR.frequency = "monthly") :
    ∀ (idxs : List Int) (g : Gen),
      (recPairs (mkOccList g now tE tR anchor idxs).1).map (fun p => p.2)
        = idxs.map (fun i => { tR with occurrenceIndex := i }) := by
  intro idxs
  induction idxs with
  | nil => intro g; rfl
  | cons i rest ih =>
    intro g
    show (recPairs ((mkOccurrence g now tE tR anchor i).1 ::
        (mkOccList (mkOccurrence g now tE tR anchor i).2 now tE tR anchor rest).1)).map
        (fun p => p.2)
      = ({ tR with occurrenceIndex := i })
          :: rest.map (fun i => { tR with occurrenceIndex := i })
    have hme : monthlyRec (mkOccurrence g now tE tR anchor i).1
        = some { tR with occurrenceIndex := i } := by
      have hrc : (mkOccurrence g now tE tR anchor i).1.recurrence
          = some { tR with occurrenceIndex := i } := rfl
      simp [monthlyRec, hrc, hfreq]
    simp only [recPairs, List.filterMap_cons, hme, Option.map_some', List.map_cons]
    exact congrArg (List.cons _) (ih _)

theorem mkOccList_length (now : Int) (tE : EntryData) (tR : Recurrence)
    (anchor : Int) :
    ∀ (idxs : List Int) (g : Gen),
      ((mkOccList g now tE tR anchor idxs).1).length = idxs.length := by
  intro idxs
  induction idxs with
  | nil => intro g; rfl
  | cons i rest ih =>
    intro g
    show ((mkOccurrence g now tE tR anchor i).1 ::
        (mkOccList (mkOccurrence g now tE tR anchor i).2 now tE tR anchor rest).1).length
      = rest.length + 1
    rw [List.length_cons, ih]

theorem expandGroup_meta (now targetDate : Int)
    (grp : List (EntryData × Recurrence)) (tE : EntryData) (tR : Recurrence)
    (ht : templateOf grp = some (tE, tR)) (hfreq : tR.frequency = "monthly")
    (g : Gen) :
    (recPairs (expandGroup g now targetDate grp).1).map (fun p => p.2)
      = (occIndices targetDate grp).map
          (fun i => { tR with occurrenceIndex := i }) := by
  unfold expandGroup
  cases hp : parseDate tR.anchorDate with
  | none =>
    simp only [ht, hp]
    have hocc : occIndices targetDate grp = [] := by
      unfold occIndices
      simp only [ht]
      have : resolveMaxOccurrenceIndex tR targetDate = none := by
        unfold resolveMaxOccurrenceIndex
        simp only [hp]
      simp only [this]
    rw [hocc]
    rfl
  | some anchor =>
    simp only [ht, hp]
    exact mkOccList_meta now tE tR anchor hfreq (occIndices targetDate grp) g

theorem expandGroup_of_nil (now targetDate : Int)
    (grp : List (EntryData × Recurrence)) (g : Gen)
    (h : occIndices targetDate grp = []) :
    expandGroup g now targetDate grp = ([], g) := by
  unfold expandGroup
  cases htm : templateOf grp with
  | none => rfl
  | some t =>
    obtain ⟨tE, tR⟩ := t
    cases hp : parseDate tR.anchorDate with
    | none =>
      show (match parseDate tR.anchorDate with
        | none => ([], g)
        | some anchor => mkOccList g now tE tR anchor (occIndices targetDate grp))
        = ([], g)
      simp only [hp]
    | some anchor =>
      show (match parseDate tR.anchorDate with
        | none => ([], g)
        | some anchor => mkOccList g now tE tR anchor (occIndices targetDate grp))
        = ([], g)
      simp only [hp, h]
      rfl

theorem occIndices_of_expandGroup_nil (now targetDate : Int)
    (grp : List (EntryData × Recurrence)) (g : Gen)
    (h : (expandGroup g now targetDate grp).1 = []) :
    occIndices targetDate grp = [] := by
  unfold expandGroup at h
  cases htm : templateOf grp with
  | none =>
    unfold occIndices
    simp only [htm]
  | some t =>
    obtain ⟨tE, tR⟩ := t
    simp only [htm] at h
    cases hp : parseDate tR.anchorDate with
    | none =>
      unfold occIndices
      simp only [htm]
      have : resolveMaxOccurrenceIndex tR targetDate = none := by
        unfold resolveMaxOccurrenceIndex
        simp only [hp]
      simp only [this]
    | some anchor =>
      simp only [hp] at h
      have hlen := mkOccList_length now tE tR anchor (occIndices targetDate grp) g
      rw [h] at hlen
      exact (List.length_eq_zero.mp hlen.symm)

theorem expandAll_of_all_nil (now targetDate : Int)
    (ps : List (EntryData × Recurrence)) :
    ∀ (rids : List String) (g : Gen),
      (∀ rid ∈ rids, occIndices targetDate (groupOf ps rid) = []) →
      expandAll g now targetDate ps rids = ([], g) := by
  intro rids
  induction rids with
  | nil => intro g _; rfl
  | cons rid rest ih =>
    intro g h
    show ((expandGroup g now targetDate (groupOf ps rid)).1 ++
        (expandAll (expandGroup g now targetDate (groupOf ps rid)).2
          now targetDate ps rest).1,
      (expandAll (expandGroup g now targetDate (groupOf ps rid)).2
        now targetDate ps rest).2) = ([], g)
    rw [expandGroup_of_nil now targetDate (groupOf ps rid) g
      (h rid (List.mem_cons_self rid rest))]
    show ([] ++ (expandAll g now targetDate ps rest).1,
      (expandAll g now targetDate ps rest).2) = ([], g)
    rw [ih g (fun r hr => h r (List.mem_cons_of_mem rid hr))]
    rfl

theorem occIndices_of_expandAll_nil (now targetDate : Int)
    (ps : List (EntryData × Recurrence)) :
    ∀ (rids : List String) (g : Gen),
      (expandAll g now targetDate ps rids).1 = [] →
      ∀ rid ∈ rids, occIndices targetDate (groupOf ps rid) = [] := by
  intro rids
  induction rids with
  | nil => intro g _ rid hr; cases hr
  | cons rid' rest ih =>
    intro g h rid hr
    have h' : (expandGroup g now targetDate (groupOf ps rid')).1 ++
        (expandAll (expandGroup g now targetDate (groupOf ps rid')).2
          now targetDate ps rest).1 = [] := h
    rw [List.append_eq_nil] at h'
    rcases List.mem_cons.mp hr with rfl | hrest
    · exact occIndices_of_expandGroup_nil now targetDate _ g h'.1
    · exact ih _ h'.2 rid hrest

theorem expandAll_meta_mem (now targetDate : Int)
    (ps : List (EntryData × Recurrence))
    (hfreq : ∀ p ∈ ps, p.2.frequency = "monthly") :
    ∀ (rids : List String) (g : Gen) (rid : String), rid ∈ rids →
      ∀ (tE : EntryData) (tR : Recurrence),
        templateOf (groupOf ps rid) = some (tE, tR) →
        ∀ i ∈ occIndices targetDate (groupOf ps rid),
          { tR with occurrenceIndex := i } ∈
            (recPairs (expandAll g now targetDate ps rids).1).map (fun p => p.2) := by
  intro rids
  induction rids with
  | nil => intro g rid hmem; cases hmem
  | cons rid' rest ih =>
    intro g rid hmem tE tR ht i hi
    have hsplit : (expandAll g now targetDate ps (rid' :: rest)).1
        = (expandGroup g now targetDate (groupOf ps rid')).1 ++
          (expandAll (expandGroup g now targetDate (groupOf ps rid')).2
            now targetDate ps rest).1 := rfl
    rw [hsplit, recPairs_append, List.map_append]
    rcases List.mem_cons.mp hmem with rfl | hrest
    · refine List.mem_append.mpr (.inl ?_)
      have hfr : tR.frequency = "monthly" :=
        hfreq (tE, tR) (mem_groupOf.mp (templateOf_mem ht)).1
      rw [expandGroup_meta now targetDate _ tE tR ht hfr g]
      exact List.mem_map.mpr ⟨i, hi, rfl⟩
    · exact List.mem_append.mpr (.inr (ih _ rid hrest tE tR ht i hi))

theorem expandAll_meta_src (now targetDate : Int)
    (ps : List (EntryData × Recurrence))
    (hfreq : ∀ p ∈ ps, p.2.frequency = "monthly") :
    ∀ (rids : List String) (g : Gen) (q : EntryData × Recurrence),
      q ∈ recPairs (expandAll g now targetDate ps rids).1 →
      ∃ p ∈ ps, p.2.recurrenceId = q.2.recurrenceId
        ∧ sameSeriesMeta q.2 p.2 = true := by
  intro rids
  induction rids with
  | nil => intro g q hq; cases hq
  | cons rid' rest ih =>
    intro g q hq
    have hsplit : (expandAll g now targetDate ps (rid' :: rest)).1
        = (expandGroup g now targetDate (groupOf ps rid')).1 ++
          (expandAll (expandGroup g now targetDate (groupOf ps rid')).2
            now targetDate ps rest).1 := rfl
    rw [hsplit, recPairs_append] at hq
    rcases List.mem_append.mp hq with hg | hrest
    · cases htm : templateOf (groupOf ps rid') with
      | none =>
        rw [show expandGroup g now targetDate (groupOf ps rid') = ([], g) by
          unfold expandGroup; rw [htm]] at hg
        cases hg
      | some t =>
        obtain ⟨tE, tR⟩ := t
        have htmem : (tE, tR) ∈ ps := (mem_groupOf.mp (templateOf_mem htm)).1
        have hfr : tR.frequency = "monthly" := hfreq (tE, tR) htmem
        have hq2 : q.2 ∈ (recPairs
            (expandGroup g now targetDate (groupOf ps rid')).1).map (fun p => p.2) :=
          List.mem_map.mpr ⟨q, hg, rfl⟩
        rw [expandGroup_meta now targetDate _ tE tR htm hfr g] at hq2
        obtain ⟨i, _, hqeq⟩ := List.mem_map.mp hq2
        refine ⟨(tE, tR), htmem, ?_, ?_⟩
        · rw [← hqeq]
        · rw [← hqeq]
          exact sameSeriesMeta_refl tR
    · exact ih _ q hrest

theorem occIndices_nil_of_cover {targetDate : Int}
    {grp : List (EntryData × Recurrence)} {tE : EntryData} {tR : Recurrence}
    {m : Int} (ht : templateOf grp = some (tE, tR))
    (hm : resolveMaxOccurrenceIndex tR targetDate = some m)
    (hcov : ∀ i : Int, 0 ≤ i → i ≤ m →
      i ∈ grp.map (fun p => p.2.occurrenceIndex) ∨ i ∈ tR.excludedOccurrences) :
    occIndices targetDate grp = [] := by
  have hm0 : 0 ≤ m := resolveMax_nonneg hm
  unfold occIndices
  simp only [ht, hm]
  rw [List.filter_eq_nil_iff]
  intro i hi
  obtain ⟨n, hn, rfl⟩ := List.mem_map.mp hi
  rw [List.mem_range] at hn
  have h0 : (0 : Int) ≤ Int.ofNat n := Int.ofNat_nonneg n
  have hle : Int.ofNat n ≤ m := by
    simp only [Int.ofNat_eq_coe]
    omega
  simp only [decide_eq_true_eq]
  rintro ⟨hc1, hc2⟩
  rcases hcov _ h0 hle with hc | hc
  · exact hc1 (List.elem_iff.mpr hc)
  · exact hc2 (List.elem_iff.mpr hc)

theorem occIndices_cover {targetDate : Int}
    {grp : List (EntryData × Recurrence)} {tE : EntryData} {tR : Recurrence}
    {m : Int} (ht : templateOf grp = some (tE, tR))
    (hm : resolveMaxOccurrenceIndex tR targetDate = some m) :
    ∀ i : Int, 0 ≤ i → i ≤ m →
      i ∈ grp.map (fun p => p.2.occurrenceIndex) ∨ i ∈ tR.excludedOccurrences
        ∨ i ∈ occIndices targetDate grp := by
  intro i h0 hle
  by_cases hex : i ∈ grp.map (fun p => p.2.occurrenceIndex)
  · exact .inl hex
  by_cases hxc : i ∈ tR.excludedOccurrences
  · exact .inr (.inl hxc)
  refine .inr (.inr ?_)
  unfold occIndices
  simp only [ht, hm]
  rw [List.mem_filter]
  constructor
  · have h1 : i.toNat ∈ List.range (m.toNat + 1) := List.mem_range.mpr (by omega)
    refine List.mem_map.mpr ⟨i.toNat, h1, ?_⟩
    show Int.ofNat i.toNat = i
    simp only [Int.ofNat_eq_coe]
    omega
  · rw [decide_eq_true_eq]
    exact ⟨fun hc => hex (List.elem_iff.mp hc), fun hc => hxc (List.elem_iff.mp hc)⟩

/-- A group whose expansion at one target is exhausted is also exhausted at
any target resolving to a maximal index that is at most the original one. -/
theorem occIndices_nil_of_earlier {t₁ t₂ : Int}
    {grp : List (EntryData × Recurrence)} {tE : EntryData} {tR : Recurrence}
    (ht : templateOf grp = some (tE, tR))
    (hnil : occIndices t₁ grp = [])
    (hmono : ∀ m₂, resolveMaxOccurrenceIndex tR t₂ = some m₂ →
      ∃ m₁, resolveMaxOccurrenceIndex tR t₁ = some m₁ ∧ m₂ ≤ m₁) :
    occIndices t₂ grp = [] := by
  cases hm₂ : resolveMaxOccurrenceIndex tR t₂ with
  | none =>
    unfold occIndices
    simp only [ht, hm₂]
  | some m₂ =>
    obtain ⟨m₁, hm₁, hmm⟩ := hmono m₂ hm₂
    apply occIndices_nil_of_cover ht hm₂
    intro i h0 hle
    rcases occIndices_cover ht hm₁ i h0 (le_trans hle hmm) with hex | hxc | hoc
    · exact .inl hex
    · exact .inr hxc
    · rw [hnil] at hoc
      cases hoc

theorem secondRun_occIndices_nil (g₁ : Gen) (now₁ targetDate₁ targetDate₂ : Int)
    (store : List EntryData) (hcons : pairwiseMeta (recPairs store))
    (htle : targetDate₂ ≤ targetDate₁)
    (hdist : ∀ p ∈ recPairs store, (parseDate p.2.anchorDate).all
      (fun a => decide (calculateMonthDistance a targetDate₂
        ≤ calculateMonthDistance a targetDate₁)) = true) :
    ∀ rid : String,
      occIndices targetDate₂ (groupOf (recPairs (sortEntriesByDate (store ++
        (expandAll g₁ now₁ targetDate₁ (recPairs store)
          (jsSetDedup ((recPairs store).map (fun p => p.2.recurrenceId)))).1))) rid)
        = [] := by
  intro rid
  set ps₁ := recPairs store with hps₁
  set rids₁ := jsSetDedup (ps₁.map (fun p => p.2.recurrenceId)) with hrids₁
  set new₁ := (expandAll g₁ now₁ targetDate₁ ps₁ rids₁).1 with hnew₁
  set ps₂ := recPairs (sortEntriesByDate (store ++ new₁)) with hps₂
  have hfreq₁ : ∀ p ∈ ps₁, p.2.frequency = "monthly" := fun p hp =>
    monthlyRec_freq p.1 p.2 (mem_recPairs hp).2
  have hperm : List.Perm ps₂ (ps₁ ++ recPairs new₁) := by
    have h1 : List.Perm (recPairs (sortEntriesByDate (store ++ new₁)))
        (recPairs (store ++ new₁)) := recPairs_perm (sortEntriesByDate_perm _)
    rw [recPairs_append] at h1
    exact h1
  have hshadow : ∀ q ∈ ps₂, ∃ p ∈ ps₁, p.2.recurrenceId = q.2.recurrenceId
      ∧ sameSeriesMeta q.2 p.2 = true := by
    intro q hq
    rcases List.mem_append.mp (hperm.mem_iff.mp hq) with h1 | h1
    · exact ⟨q, h1, rfl, sameSeriesMeta_refl _⟩
    · exact expandAll_meta_src now₁ targetDate₁ ps₁ hfreq₁ rids₁ g₁ q h1
  have hsub : ∀ x ∈ ps₁, x ∈ ps₂ := fun x hx =>
    hperm.mem_iff.mpr (List.mem_append.mpr (.inl hx))
  have hsubnew : ∀ x ∈ recPairs new₁, x ∈ ps₂ := fun x hx =>
    hperm.mem_iff.mpr (List.mem_append.mpr (.inr hx))
  have hcons₂ : pairwiseMeta ps₂ := by
    intro p hp q hq hr
    obtain ⟨p₀, hp₀, hp₀r, hp₀m⟩ := hshadow p hp
    obtain ⟨q₀, hq₀, hq₀r, hq₀m⟩ := hshadow q hq
    have h00 : sameSeriesMeta p₀.2 q₀.2 = true :=
      hcons p₀ hp₀ q₀ hq₀ (by rw [hp₀r, hr, ← hq₀r])
    rw [sameSeriesMeta_iff] at hp₀m hq₀m h00 ⊢
    exact ⟨by rw [hp₀m.1, h00.1, ← hq₀m.1],
      by rw [hp₀m.2.1, h00.2.1, ← hq₀m.2.1],
      by rw [hp₀m.2.2, h00.2.2, ← hq₀m.2.2]⟩
  cases hgrp2 : templateOf (groupOf ps₂ rid) with
  | none =>
    unfold occIndices
    simp only [hgrp2]
  | some t₂ =>
    obtain ⟨t₂E, t₂R⟩ := t₂
    cases hm₂ : resolveMaxOccurrenceIndex t₂R targetDate₂ with
    | none =>
      unfold occIndices
      simp only [hgrp2, hm₂]
    | some m =>
      have ht₂grp : (t₂E, t₂R) ∈ groupOf ps₂ rid := templateOf_mem hgrp2
      have ht₂ : (t₂E, t₂R) ∈ ps₂ ∧ t₂R.recurrenceId = rid := mem_groupOf.mp ht₂grp
      obtain ⟨p₀, hp₀, hp₀r, hp₀m⟩ := hshadow _ ht₂.1
      have hp₀grp : p₀ ∈ groupOf ps₁ rid :=
        mem_groupOf.mpr ⟨hp₀, by rw [hp₀r]; exact ht₂.2⟩
      obtain ⟨t₁, ht₁⟩ := templateOf_of_ne_nil (List.ne_nil_of_mem hp₀grp)
      obtain ⟨t₁E, t₁R⟩ := t₁
      have ht₁grp := templateOf_mem ht₁
      have ht₁mem : (t₁E, t₁R) ∈ ps₁ ∧ t₁R.recurrenceId = rid := mem_groupOf.mp ht₁grp
      have hmeta : sameSeriesMeta t₂R t₁R = true :=
        hcons₂ _ ht₂.1 _ (hsub _ ht₁mem.1) (by rw [ht₂.2, ht₁mem.2])
      have hm₂' : resolveMaxOccurrenceIndex t₁R targetDate₂ = some m := by
        rw [← resolveMax_meta hmeta targetDate₂]
        exact hm₂
      obtain ⟨a, hpa⟩ := resolveMax_anchor hm₂'
      have hda := hdist (t₁E, t₁R) ht₁mem.1
      rw [hpa] at hda
      have hd : calculateMonthDistance a targetDate₂
          ≤ calculateMonthDistance a targetDate₁ := of_decide_eq_true hda
      obtain ⟨m₁, hm₁, hmm⟩ := resolveMax_mono hpa htle hd hm₂'
      have hrid₁ : rid ∈ rids₁ :=
        mem_jsSetDedup (List.mem_map.mpr ⟨(t₁E, t₁R), ht₁mem.1, ht₁mem.2⟩)
      apply occIndices_nil_of_cover hgrp2 hm₂
      intro i h0 hle
      rcases occIndices_cover ht₁ hm₁ i h0 (le_trans hle hmm) with hex | hxc | hoc
      · obtain ⟨p, hpg, hpi⟩ := List.mem_map.mp hex
        refine .inl (List.mem_map.mpr ⟨p, ?_, hpi⟩)
        have hpp := mem_groupOf.mp hpg
        exact mem_groupOf.mpr ⟨hsub _ hpp.1, hpp.2⟩
      · refine .inr ?_
        rw [(sameSeriesMeta_iff.mp hmeta).2.2]
        exact hxc
      · have hq := expandAll_meta_mem now₁ targetDate₁ ps₁ hfreq₁ rids₁ g₁ rid
          hrid₁ t₁E t₁R ht₁ i hoc
        obtain ⟨q, hqmem, hqeq⟩ := List.mem_map.mp hq
        refine .inl (List.mem_map.mpr ⟨q, ?_, ?_⟩)
        · refine mem_groupOf.mpr ⟨hsubnew _ hqmem, ?_⟩
          rw [hqeq]
          exact ht₁mem.2
        · rw [hqeq]

theorem ensure_of_occIndices_nil (g : Gen) (now targetDate : Int)
    (store : List EntryData)
    (h : ∀ rid, occIndices targetDate (groupOf (recPairs store) rid) = []) :
    ensureRecurringEntriesUpTo g now targetDate store = (store, g) := by
  unfold ensureRecurringEntriesUpTo
  by_cases h1 : store.isEmpty
  · rw [if_pos h1]
  · rw [if_neg h1]
    by_cases h2 : (recPairs store).isEmpty
    · rw [if_pos h2]
    · rw [if_neg h2]
      have hexp := expandAll_of_all_nil now targetDate (recPairs store)
        (jsSetDedup ((recPairs store).map (fun p => p.2.recurrenceId))) g
        (fun rid _ => h rid)
      show (if ((expandAll g now targetDate (recPairs store)
            (jsSetDedup ((recPairs store).map (fun p => p.2.recurrenceId)))).1).isEmpty
          then (store, (expandAll g now targetDate (recPairs store)
            (jsSetDedup ((recPairs store).map (fun p => p.2.recurrenceId)))).2)
          else (sortEntriesByDate (store ++ (expandAll g now targetDate (recPairs store)
              (jsSetDedup ((recPairs store).map (fun p => p.2.recurrenceId)))).1),
            (expandAll g now targetDate (recPairs store)
              (jsSetDedup ((recPairs store).map (fun p => p.2.recurrenceId)))).2))
        = (store, g)
      rw [hexp]
      rfl

/-- Counterexample to claim C2 as stated for every entry set: in a store
whose series carries two occurrence-index-0 entries with different anchor
dates (restorable from storage — normalization is per-entry), the re-sort
performed by the first expansion changes which entry the grouping selects as
template, so a second run with the same target date creates two additional
occurrence entries (5 entries where the first run left 3). -/
theorem C2_counterexample :
    ((ensureRecurringEntriesUpTo (mkGen "h-") scenarioANow scenarioATarget
        inconsistentRun1).1).length = 5
      ∧ inconsistentRun1.length = 3 := by
  decide

/-- Claim C2 (amended): recurrence expansion is idempotent on
series-consistent stores — whenever any two monthly entries of one series
agree on the anchor date, termination and exclusion list (an invariant every
mutation of the service preserves, though per-entry normalization does not
enforce it across entries), re-running `ensureRecurringEntriesUpTo` on the
persisted result of a first run with the same target date, or with any
earlier one at the same or an earlier month distance from every anchor of
the store, creates no additional occurrence entries: the collection is
returned unchanged, whatever id generator and current time the second run
uses. -/
theorem C2_expansion_idempotent (g₁ g₂ : Gen)
    (now₁ now₂ targetDate₁ targetDate₂ : Int)
    (store : List EntryData) (hcons : consistentStore store = true)
    (hle : targetDate₂ ≤ targetDate₁)
    (hdist : ∀ p ∈ recPairs store, (parseDate p.2.anchorDate).all
      (fun a => decide (calculateMonthDistance a targetDate₂
        ≤ calculateMonthDistance a targetDate₁)) = true) :
    ensureRecurringEntriesUpTo g₂ now₂ targetDate₂
        ((ensureRecurringEntriesUpTo g₁ now₁ targetDate₁ store).1)
      = ((ensureRecurringEntriesUpTo g₁ now₁ targetDate₁ store).1, g₂) := by
  by_cases h1 : store.isEmpty
  · have e1 : (ensureRecurringEntriesUpTo g₁ now₁ targetDate₁ store).1 = store := by
      unfold ensureRecurringEntriesUpTo
      rw [if_pos h1]
    rw [e1]
    unfold ensureRecurringEntriesUpTo
    rw [if_pos h1]
  · by_cases h2 : (recPairs store).isEmpty
    · have e1 : (ensureRecurringEntriesUpTo g₁ now₁ targetDate₁ store).1 = store := by
        unfold ensureRecurringEntriesUpTo
        rw [if_neg h1, if_pos h2]
      rw [e1]
      unfold ensureRecurringEntriesUpTo
      rw [if_neg h1, if_pos h2]
    · by_cases h3 : ((expandAll g₁ now₁ targetDate₁ (recPairs store)
          (jsSetDedup ((recPairs store).map (fun p => p.2.recurrenceId)))).1).isEmpty
      · have e1 : (ensureRecurringEntriesUpTo g₁ now₁ targetDate₁ store).1 = store := by
          unfold ensureRecurringEntriesUpTo
          rw [if_neg h1, if_neg h2]
          show (if ((expandAll g₁ now₁ targetDate₁ (recPairs store)
                (jsSetDedup ((recPairs store).map (fun p => p.2.recurrenceId)))).1).isEmpty
              then (store, (expandAll g₁ now₁ targetDate₁ (recPairs store)
                (jsSetDedup ((recPairs store).map (fun p => p.2.recurrenceId)))).2)
              else (sortEntriesByDate (store ++ (expandAll g₁ now₁ targetDate₁ (recPairs store)
                  (jsSetDedup ((recPairs store).map (fun p => p.2.recurrenceId)))).1),
                (expandAll g₁ now₁ targetDate₁ (recPairs store)
                  (jsSetDedup ((recPairs store).map (fun p => p.2.recurrenceId)))).2)).1
            = store
          rw [if_pos h3]
        rw [e1]
        have hnil := occIndices_of_expandAll_nil now₁ targetDate₁ (recPairs store)
          (jsSetDedup ((recPairs store).map (fun p => p.2.recurrenceId))) g₁
          (List.isEmpty_iff.mp h3)
        have hall : ∀ rid, occIndices targetDate₂ (groupOf (recPairs store) rid) = [] := by
          intro rid
          by_cases hg : groupOf (recPairs store) rid = []
          · rw [hg]
            rfl
          · obtain ⟨p, hp⟩ := List.exists_mem_of_ne_nil _ hg
            have hpm := mem_groupOf.mp hp
            have hnil₁ := hnil rid
              (mem_jsSetDedup (List.mem_map.mpr ⟨p, hpm.1, hpm.2⟩))
            obtain ⟨t, ht⟩ := templateOf_of_ne_nil hg
            obtain ⟨tE, tR⟩ := t
            have htmem : (tE, tR) ∈ recPairs store :=
              (mem_groupOf.mp (templateOf_mem ht)).1
            refine occIndices_nil_of_earlier ht hnil₁ ?_
            intro m₂ hm₂
            obtain ⟨a, hpa⟩ := resolveMax_anchor hm₂
            have hda := hdist (tE, tR) htmem
            rw [hpa] at hda
            exact resolveMax_mono hpa hle (of_decide_eq_true hda) hm₂
        exact ensure_of_occIndices_nil g₂ now₂ targetDate₂ store hall
      · have e1 : (ensureRecurringEntriesUpTo g₁ now₁ targetDate₁ store).1
            = sortEntriesByDate (store ++ (expandAll g₁ now₁ targetDate₁ (recPairs store)
              (jsSetDedup ((recPairs store).map (fun p => p.2.recurrenceId)))).1) := by
          unfold ensureRecurringEntriesUpTo
          rw [if_neg h1, if_neg h2]
          show (if ((expandAll g₁ now₁ targetDate₁ (recPairs store)
                (jsSetDedup ((recPairs store).map (fun p => p.2.recurrenceId)))).1).isEmpty
              then (store, (expandAll g₁ now₁ targetDate₁ (recPairs store)
                (jsSetDedup ((recPairs store).map (fun p => p.2.recurrenceId)))).2)
              else (sortEntriesByDate (store ++ (expandAll g₁ now₁ targetDate₁ (recPairs store)
                  (jsSetDedup ((recPairs store).map (fun p => p.2.recurrenceId)))).1),
                (expandAll g₁ now₁ targetDate₁ (recPairs store)
                  (jsSetDedup ((recPairs store).map (fun p => p.2.recurrenceId)))).2)).1
            = sortEntriesByDate (store ++ (expandAll g₁ now₁ targetDate₁ (recPairs store)
              (jsSetDedup ((recPairs store).map (fun p => p.2.recurrenceId)))).1)
          rw [if_neg h3]
        rw [e1]
        exact ensure_of_occIndices_nil g₂ now₂ targetDate₂ _
          (secondRun_occIndices_nil g₁ now₁ targetDate₁ targetDate₂ store
            (consistentStore_spec store hcons) hle hdist)

/-- Witness for C2 at the Scenario A store: the singleton anchor store is
series-consistent, 2024-03-05 is earlier than the 2024-04-20 first-run
target and at an earlier month distance from the anchor, and re-expanding
the expanded store to that earlier target returns it unchanged. -/
theorem C2_expansion_idempotent_witness :
    (consistentStore [scenarioAEntry] = true
      ∧ (parseDate "2024-03-05").getD 0 ≤ scenarioATarget
      ∧ (∀ p ∈ recPairs [scenarioAEntry], (parseDate p.2.anchorDate).all
          (fun a => decide (calculateMonthDistance a ((parseDate "2024-03-05").getD 0)
            ≤ calculateMonthDistance a scenarioATarget)) = true))
    ∧ ensureRecurringEntriesUpTo (mkGen "h-") scenarioANow
        ((parseDate "2024-03-05").getD 0) scenarioAResult
      = (scenarioAResult, mkGen "h-") :=
  ⟨⟨by decide, by decide, by decide⟩,
    C2_expansion_idempotent (mkGen "gid-") (mkGen "h-") scenarioANow scenarioANow
      scenarioATarget ((parseDate "2024-03-05").getD 0) [scenarioAEntry]
      (by decide) (by decide) (by decide)⟩

/-- Counterexample to claim C4 as stated: removing with scope `future` at
occurrence index 2 of a series whose termination is already bounded at
`{occurrences, total: 1}` leaves the sibling's termination at
`{occurrences, total: 1}` — the code clamps with `min(total, k)` — not at
the claimed `{occurrences, total: 2}`. -/
theorem C4_counterexample :
    (removeEntry scenarioANow [boundedSeriesEntry0, boundedSeriesEntry2] "y2"
        .future).map (fun e => (monthlyRec e).map (fun r => r.termination)) =
      [some (.occurrences 1)]
      ∧ Termination.occurrences (1 : Int) ≠ Termination.occurrences 2 := by
  decide

/-- Claim C4 (amended): for every store and recurring entry at occurrence
index k > 0, `removeEntry` with scope `future` keeps exactly the
non-series entries other than the target plus the series occurrences of
index < k, and rewrites every remaining sibling's termination to
`truncateTerminationAfterCutoff(termination, k)` — indefinite becomes
`{occurrences, total: k}`, but an already-bounded total t becomes
`{occurrences, total: min(t, k)}`, not always k — dropping excluded
indices ≥ k and bumping `updatedAt`; in particular (Scenario B, where the
termination is indefinite) removing index 2 of the series with
materialized indices {0,1,2,3} leaves indices {0,1} with termination
`{occurrences, total: 2}`, and a subsequent expansion to 2024-06-01
creates no new occurrences. -/
theorem C4_future_truncation (now : Int) (store : List EntryData)
    (entryId : String) (target : EntryData) (tr : Recurrence)
    (hfind : store.find? (fun e => e.id = entryId) = some target)
    (htr : monthlyRec target = some tr)
    (hk : 0 < tr.occurrenceIndex) :
    (removeEntry now store entryId .future =
      (store.filter (fun e =>
        match monthlyRec e with
        | none => e.id ≠ entryId
        | some r =>
          if r.recurrenceId ≠ tr.recurrenceId then e.id ≠ entryId
          else r.occurrenceIndex < tr.occurrenceIndex)).map (fun e =>
        match monthlyRec e with
        | some r =>
          if r.recurrenceId = tr.recurrenceId then
            { e with
              updatedAt := some (toISOString now),
              recurrence := some { r with
                termination :=
                  truncateTerminationAfterCutoff tr.termination tr.occurrenceIndex,
                excludedOccurrences :=
                  r.excludedOccurrences.filter
                    (fun x => x < tr.occurrenceIndex) } }
          else e
        | none => e))
    ∧ truncateTerminationAfterCutoff .indefinite tr.occurrenceIndex
        = .occurrences tr.occurrenceIndex
    ∧ (∀ t : Int,
        truncateTerminationAfterCutoff (.occurrences t) tr.occurrenceIndex
          = .occurrences (min t tr.occurrenceIndex))
    ∧ (removeEntry scenarioANow scenarioAResult "gid-1" .future).map
          (fun e => ((monthlyRec e).map (fun r => (r.occurrenceIndex, r.termination)),
            e.date)) =
        [(some (0, .occurrences 2), "2024-01-15T12:00:00.000Z"),
         (some (1, .occurrences 2), "2024-02-15T12:00:00.000Z")]
    ∧ ((ensureRecurringEntriesUpTo (mkGen "gid-") scenarioANow
          ((parseDate "2024-06-01").getD 0)
          (removeEntry scenarioANow scenarioAResult "gid-1" .future)).1).length
        = 2 := by
  have hmem : target ∈ store := List.mem_of_find?_eq_some hfind
  have hk0 : ¬(tr.occurrenceIndex = 0) := by omega
  have hmax : max tr.occurrenceIndex 0 = tr.occurrenceIndex :=
    max_eq_left (le_of_lt hk)
  refine ⟨?_, ?_, ?_, by decide, by decide⟩
  · have hne : ¬(((store.filter (fun e =>
        match monthlyRec e with
        | none => e.id ≠ entryId
        | some r =>
          if r.recurrenceId ≠ tr.recurrenceId then e.id ≠ entryId
          else r.occurrenceIndex < tr.occurrenceIndex)).length) = store.length) := by
      intro h
      have hall := List.filter_length_eq_length.mp h target hmem
      simp [htr] at hall
    simp only [removeEntry, hfind, htr]
    rw [if_neg (by
      rintro (hc | ⟨-, hc⟩)
      · exact absurd hc (by decide)
      · exact hk0 hc)]
    rw [if_pos trivial]
    rw [if_neg hne]
  · show Termination.occurrences (max tr.occurrenceIndex 0)
      = .occurrences tr.occurrenceIndex
    rw [hmax]
  · intro t
    show Termination.occurrences (min t (max tr.occurrenceIndex 0))
      = .occurrences (min t tr.occurrenceIndex)
    rw [hmax]

/-- Witness for C4 at Scenario B: gid-1 (index 2) of the Scenario A store
is found with a positive occurrence index, and the removal leaves indices
{0,1} with termination bounded at 2. -/
theorem C4_future_truncation_witness :
    (scenarioAResult.find? (fun e => e.id = "gid-1") = some scenarioBTargetEntry
      ∧ monthlyRec scenarioBTargetEntry = some scenarioBRec
      ∧ 0 < scenarioBRec.occurrenceIndex)
    ∧ (removeEntry scenarioANow scenarioAResult "gid-1" .future).map
          (fun e => ((monthlyRec e).map (fun r => (r.occurrenceIndex, r.termination)),
            e.date)) =
        [(some (0, .occurrences 2), "2024-01-15T12:00:00.000Z"),
         (some (1, .occurrences 2), "2024-02-15T12:00:00.000Z")] :=
  ⟨⟨by decide, by decide, by decide⟩,
    (C4_future_truncation scenarioANow scenarioAResult "gid-1"
      scenarioBTargetEntry scenarioBRec (by decide) (by decide)
      (by decide)).2.2.2.1⟩

/-- Counterexample to claim C8 as stated: `calculateMonthlyTotalForType` sums
the store's current entries, not the provided `entries` argument (which the
source receives as the unused `_entries`): with one matching income entry in
the store and an empty argument the result is 100, while over an empty store
and the same entry passed as argument it is 0. -/
theorem C8_counterexample :
    calculateMonthlyTotalForType [mayIncomeEntry] [] .INCOME mayReference = 100
      ∧ calculateMonthlyTotalForType [] [mayIncomeEntry] .INCOME mayReference = 0 := by
  decide

/-- Claim C8 (amended): for every store, provided entries argument, type and
reference date, the monthly total equals the sum of the amounts of exactly
those entries of the *store* whose type matches and whose (valid) date falls
in the same `America/Santiago` calendar month as the reference date — the
provided entries argument is ignored — and when no store entry matches, the
result is 0 and no error is raised (the function is total). -/
theorem C8_monthlyTotal_sums_store (store entriesArg : List EntryData)
    (ty : EntryType) (referenceDate : Int) :
    calculateMonthlyTotalForType store entriesArg ty referenceDate =
        ((store.filter (monthMatches ty referenceDate)).map (fun e => e.amount)).sum
      ∧ ((∀ e ∈ store, monthMatches ty referenceDate e = false) →
          calculateMonthlyTotalForType store entriesArg ty referenceDate = 0) := by
  have hmain :
      calculateMonthlyTotalForType store entriesArg ty referenceDate =
        ((store.filter (monthMatches ty referenceDate)).map (fun e => e.amount)).sum := by
    unfold calculateMonthlyTotalForType
    rw [foldl_monthlyTotal]
    omega
  refine ⟨hmain, fun hnone => ?_⟩
  rw [hmain, List.filter_eq_nil_iff.mpr ?_]
  · simp
  · intro e he
    simp [hnone e he]

/-- Witness for C8 (amended), Scenario E: a reference month with zero
matching entries (an income query over a store holding only an expense-free
May income entry, queried for expenses) yields 0. -/
theorem C8_monthlyTotal_sums_store_witness :
    calculateMonthlyTotalForType [mayIncomeEntry] [] .EXPENSE mayReference = 0 :=
  (C8_monthlyTotal_sums_store [mayIncomeEntry] [] .EXPENSE mayReference).2 (by decide)

end Presupuestapp
